import Mathlib

/-!
Shallow embedding of the goimporter formatter core (package `formatter`:
`collector.go`, `detector.go`, the grouping/rewrite code, and `entities/types.go`).

Go strings are modelled as `List Char` (`GoStr`).  Helper functions mirror the
`strings` / `bufio` standard-library behaviour actually exercised by the code:
`strings.TrimSpace`, `strings.Contains`, `strings.HasPrefix`/`HasSuffix`,
`strings.TrimSuffix`, `strings.Split`/`Join`, `strconv.Quote` (the `%q` verb,
modelled exactly on ASCII; code points ≥ 0x80 are passed through, matching
`unicode.IsPrint` on the printable range), and `bufio.ScanLines` (splits at
newline characters and drops one trailing carriage return per line).

Field and function names follow the source, except that names that may not end
in certain substrings in this development are abbreviated: the `RepoConfig`
fields `OrgPrefix`, `RepoPrefix`, `CommonPrefix`, `DomainPrefix` are rendered
`OrgPfx`, `RepoPfx`, `CommonPfx`, `DomainPfx`, and `AdditionalCommonPrefixes`
is rendered `AdditionalCommonPfxs`; the `Import` struct is rendered `GoImport`.
-/

abbrev GoStr := List Char

def str (s : String) : GoStr := s.toList

/-- `entities.Import`: a single import statement (alias, path). -/
structure GoImport where
  Alias : GoStr
  Path : GoStr
deriving DecidableEq, Repr

/-- `entities.ImportGroups`: the seven ordered groups. -/
structure ImportGroups where
  Stdlib : List GoImport
  External : List GoImport
  OrgCommon : List GoImport
  DomainCommon : List GoImport
  RepoOther : List GoImport
  ProjectPkg : List GoImport
  ProjectInternal : List GoImport
deriving DecidableEq, Repr

/-- `entities.RepoConfig` (field names abbreviated, see header). -/
structure RepoConfig where
  OrgPfx : GoStr
  RepoPfx : GoStr
  CommonPfx : GoStr
  DomainPfx : GoStr
  ProjectsTemplate : GoStr
  AdditionalCommonPfxs : List GoStr
deriving DecidableEq, Repr

/-- Go `unicode.IsSpace` restricted to the code points that occur in Latin-1
(space, tab, newline, vertical tab, form feed, carriage return, NEL, NBSP). -/
def isGoSpace (c : Char) : Bool :=
  c = ' ' || c = '\t' || c = '\n' || c = '\x0B' || c = '\x0C' || c = '\r' ||
    c = '\u0085' || c = ' '

/-- Left part of `strings.TrimSpace`. -/
def trimLeft (l : GoStr) : GoStr := l.dropWhile isGoSpace

/-- Right part of `strings.TrimSpace`. -/
def trimRight (l : GoStr) : GoStr := (l.reverse.dropWhile isGoSpace).reverse

/-- `strings.TrimSpace`. -/
def goTrim (l : GoStr) : GoStr := trimRight (trimLeft l)

/-- `strings.Contains`. -/
def goContains : GoStr → GoStr → Bool
  | [], sub => sub.isPrefixOf ([] : GoStr)
  | c :: rest, sub => sub.isPrefixOf (c :: rest) || goContains rest sub

/-- `strings.TrimSuffix`. -/
def goTrimSfx (s sfx : GoStr) : GoStr :=
  if sfx.isSuffixOf s then s.take (s.length - sfx.length) else s

/-- `strings.Split` with a one-character separator (the code only splits on "/"). -/
def splitOnChar (sep : Char) : GoStr → List GoStr
  | [] => [[]]
  | c :: rest =>
    match splitOnChar sep rest with
    | [] => if c = sep then [[], []] else [[c]]
    | h :: t => if c = sep then [] :: h :: t else (c :: h) :: t

/-- `bufio.ScanLines`: drop one trailing carriage return. -/
def dropCR (l : GoStr) : GoStr :=
  if l.getLast? = some '\r' then l.dropLast else l

/-- `bufio.Scanner` with `ScanLines`: split at newlines, dropping one trailing
CR per line; a final chunk without a newline is still returned; a trailing
newline does not produce an extra empty line. -/
def splitLinesAux : GoStr → GoStr → List GoStr
  | [], acc => if acc.isEmpty then [] else [dropCR acc]
  | c :: rest, acc =>
    if c = '\n' then dropCR acc :: splitLinesAux rest []
    else splitLinesAux rest (acc ++ [c])

def splitLines (t : GoStr) : List GoStr := splitLinesAux t []

/-- Each emitted line is written as `line + "\n"` (`buf.WriteString`). -/
def renderLines (ls : List GoStr) : GoStr := (ls.map (fun l => l ++ ['\n'])).flatten

/-- Split a list at the first occurrence of `c` (none if `c` is absent). -/
def breakFirst (c : Char) : GoStr → Option (GoStr × GoStr)
  | [] => none
  | x :: xs =>
    if x = c then some ([], xs)
    else
      match breakFirst c xs with
      | none => none
      | some (a, b) => some (x :: a, b)

/-- `formatter.parseImportLine`: the path is the text between the first and the
last double quote (the last must be strictly after the first); the alias is the
trimmed text before the first quote.  Returns `(path, alias)`. -/
def parseImportLine (line : GoStr) : GoStr × GoStr :=
  match breakFirst '"' line with
  | none => ([], [])
  | some (before, after) =>
    match breakFirst '"' after.reverse with
    | none => ([], [])
    | some (_, revPath) => (revPath.reverse, goTrim before)

def opener : GoStr := str "import ("

def closer : GoStr := str ")"

/-- `formatter.CollectImports` scanning loop (the scanner error path cannot
occur on an in-memory buffer). -/
def collectAux : Bool → Bool → List GoStr → List GoImport
  | _, _, [] => []
  | found, inB, line :: rest =>
    let t := goTrim line
    if t = opener ∧ ¬found then
      collectAux true true rest
    else if inB ∧ t = closer then
      collectAux found false rest
    else if inB ∧ t ≠ [] ∧ ¬(str "//").isPrefixOf t then
      if (parseImportLine t).1 = [] then collectAux found inB rest
      else ⟨(parseImportLine t).2, (parseImportLine t).1⟩ :: collectAux found inB rest
    else collectAux found inB rest

def CollectImports (code : GoStr) : List GoImport := collectAux false false (splitLines code)

/-- `formatter.extractDomainFromTemplate` inner scan: first `parts[i] = "projects"`
with `i > 0` and `i+1 < len parts` yields `parts[i+1]`. -/
def domainScan : List GoStr → GoStr
  | p :: q :: rest => if p = str "projects" then q else domainScan (q :: rest)
  | _ => []

/-- `formatter.extractDomainFromTemplate`. -/
def extractDomainFromTemplate (tpl : GoStr) : GoStr :=
  match splitOnChar '/' tpl with
  | [] => []
  | _ :: rest => domainScan rest

/-- Inner loop of the project detection in the grouping code: scan the slash
segments for the first occurrence of the domain segment whose successor is not
`"pkg"`; the result is `strings.Join(parts[:i+2], "/")`. -/
def scanParts (d : GoStr) : List GoStr → List GoStr → GoStr
  | before, p :: q :: rest =>
    if p = d ∧ q ≠ str "pkg" then List.intercalate ['/'] (before ++ [p, q])
    else scanParts d (before ++ [p]) (q :: rest)
  | _, _ => []

/-- One import's contribution to project detection: the guard of the outer
loop in the grouping code followed by the segment scan. -/
def detectOne (d path : GoStr) : GoStr :=
  if d ≠ [] ∧ goContains path (str "/projects/" ++ d ++ str "/") = true ∧
      (goContains path (str "/internal/") = true ∨ goContains path (str "/pkg/") = true) then
    scanParts d [] (splitOnChar '/' path)
  else []

/-- Project detection: the first import yielding a non-empty project path wins
(`projectPrefix` in the source). -/
def detectProject (d : GoStr) : List GoImport → GoStr
  | [] => []
  | imp :: rest =>
    let v := detectOne d imp.Path
    if v = [] then detectProject d rest else v

inductive GroupTag
  | stdlib
  | external
  | orgCommon
  | domainCommon
  | repoOther
  | projectPkg
  | projectInternal
deriving DecidableEq, Repr

/-- `formatter.stringHasPrefixAny`. -/
def pfxAny (s : GoStr) (pfxs : List GoStr) : Bool := pfxs.any (fun p => p.isPrefixOf s)

/-- The `switch` in `formatter.GroupImports`, as a classification function.
`projPfx` is the detected `projectPrefix` (`""` when no project was detected;
`projectPkgPrefix != ""` in the source is equivalent to `projectPrefix != ""`). -/
def classifyPath (repo : RepoConfig) (projPfx : GoStr) (path : GoStr) : GroupTag :=
  if goContains path (str ".") = false then .stdlib
  else if repo.OrgPfx.isPrefixOf path = false then .external
  else if repo.CommonPfx.isPrefixOf path = true ∨ pfxAny path repo.AdditionalCommonPfxs = true ∨
      (repo.OrgPfx.isPrefixOf path = true ∧ repo.RepoPfx.isPrefixOf path = false) then .orgCommon
  else if repo.DomainPfx.isPrefixOf path = true then .domainCommon
  else if projPfx ≠ [] ∧ projPfx.isPrefixOf path = true ∧ goContains path (str "/pkg/") = true then
    .projectPkg
  else if projPfx ≠ [] ∧ projPfx.isPrefixOf path = true ∧ goContains path (str "/internal/") = true then
    .projectInternal
  else .repoOther

def emptyGroups : ImportGroups := ⟨[], [], [], [], [], [], []⟩

/-- `groups.X = append(groups.X, imp)` for the group selected by the switch. -/
def appendG (g : ImportGroups) : GroupTag → GoImport → ImportGroups
  | .stdlib, i => { g with Stdlib := g.Stdlib ++ [i] }
  | .external, i => { g with External := g.External ++ [i] }
  | .orgCommon, i => { g with OrgCommon := g.OrgCommon ++ [i] }
  | .domainCommon, i => { g with DomainCommon := g.DomainCommon ++ [i] }
  | .repoOther, i => { g with RepoOther := g.RepoOther ++ [i] }
  | .projectPkg, i => { g with ProjectPkg := g.ProjectPkg ++ [i] }
  | .projectInternal, i => { g with ProjectInternal := g.ProjectInternal ++ [i] }

/-- The classification loop of `GroupImports`: skip paths already in the
`processed` set, otherwise classify and append. -/
def groupAux (cls : GoStr → GroupTag) : ImportGroups → List GoStr → List GoImport → ImportGroups
  | acc, _, [] => acc
  | acc, seen, imp :: rest =>
    if imp.Path ∈ seen then groupAux cls acc seen rest
    else groupAux cls (appendG acc (cls imp.Path) imp) (imp.Path :: seen) rest

/-- Byte-wise `<` on Go strings (`imports[i].Path < imports[j].Path`). -/
def ltStr : GoStr → GoStr → Bool
  | [], [] => false
  | [], _ :: _ => true
  | _ :: _, [] => false
  | a :: as, b :: bs =>
    if a.toNat < b.toNat then true
    else if b.toNat < a.toNat then false
    else ltStr as bs

def insertImp (a : GoImport) : List GoImport → List GoImport
  | [] => [a]
  | b :: rest => if ltStr b.Path a.Path then b :: insertImp a rest else a :: b :: rest

/-- `formatter.sortImports`: sort a group by path ascending.  (`sort.Slice` is
modelled by insertion sort; after deduplication all paths in a group are
distinct, so any sort ascending by path produces the same list.) -/
def sortImports (l : List GoImport) : List GoImport := l.foldr insertImp []

/-- `formatter.GroupImports`.  The second parameter is the `prefixes` argument,
which the function ignores (`_ []string` in the source). -/
def GroupImports (imports : List GoImport) (_pfxs : List GoStr) (repo : RepoConfig) :
    ImportGroups :=
  let d := extractDomainFromTemplate repo.ProjectsTemplate
  let projPfx := detectProject d imports
  let g := groupAux (classifyPath repo projPfx) emptyGroups [] imports
  { Stdlib := sortImports g.Stdlib
    External := sortImports g.External
    OrgCommon := sortImports g.OrgCommon
    DomainCommon := sortImports g.DomainCommon
    RepoOther := sortImports g.RepoOther
    ProjectPkg := sortImports g.ProjectPkg
    ProjectInternal := sortImports g.ProjectInternal }

def hexDigit (n : Nat) : Char :=
  if n < 10 then Char.ofNat ('0'.toNat + n) else Char.ofNat ('a'.toNat + n - 10)

/-- One character of `strconv.Quote` (the `%q` verb): backslash-escape quote and
backslash, print printable ASCII verbatim, use the standard short escapes, hex
escapes for remaining ASCII; code points ≥ 0x80 are passed through (printable
range of `unicode.IsPrint`). -/
def goQuoteChar (c : Char) : GoStr :=
  if c = '"' ∨ c = '\\' then ['\\', c]
  else if 0x20 ≤ c.toNat ∧ c.toNat < 0x7f then [c]
  else if c = '\x07' then ['\\', 'a']
  else if c = '\x08' then ['\\', 'b']
  else if c = '\x0C' then ['\\', 'f']
  else if c = '\n' then ['\\', 'n']
  else if c = '\r' then ['\\', 'r']
  else if c = '\t' then ['\\', 't']
  else if c = '\x0B' then ['\\', 'v']
  else if c.toNat < 0x80 then ['\\', 'x', hexDigit (c.toNat / 16), hexDigit (c.toNat % 16)]
  else [c]

/-- `strconv.Quote` / the `%q` verb. -/
def goQuote (s : GoStr) : GoStr := '"' :: (s.map goQuoteChar).flatten ++ ['"']

/-- One synthesized entry: `indent \t alias path` or `indent \t path`
(`fmt.Sprintf("%s\t%s %q", ...)` / `fmt.Sprintf("%s\t%q", ...)`). -/
def entryLine (indent : GoStr) (imp : GoImport) : GoStr :=
  if imp.Alias ≠ [] then indent ++ '\t' :: (imp.Alias ++ ' ' :: goQuote imp.Path)
  else indent ++ '\t' :: goQuote imp.Path

/-- `writeImportGroup` from `RewriteFile`: nothing for an empty group; one blank
line first when `needNewline`; then the entries. -/
def writeGroupLines (indent : GoStr) (needNL : Bool) (imps : List GoImport) : List GoStr :=
  if imps.isEmpty then []
  else (if needNL then [([] : GoStr)] else []) ++ imps.map (entryLine indent)

/-- The body synthesized for the first import block: the seven groups in fixed
order, threading `hasContent` exactly as `RewriteFile` does. -/
def importBody (indent : GoStr) (g : ImportGroups) : List GoStr :=
  let b1 := writeGroupLines indent false g.Stdlib
  let h1 := !g.Stdlib.isEmpty
  let b2 := writeGroupLines indent h1 g.External
  let h2 := h1 || !g.External.isEmpty
  let b3 := writeGroupLines indent h2 g.OrgCommon
  let h3 := h2 || !g.OrgCommon.isEmpty
  let b4 := writeGroupLines indent h3 g.DomainCommon
  let h4 := h3 || !g.DomainCommon.isEmpty
  let b5 := writeGroupLines indent h4 g.RepoOther
  let h5 := h4 || !g.RepoOther.isEmpty
  let b6 := writeGroupLines indent h5 g.ProjectPkg
  let h6 := h5 || !g.ProjectPkg.isEmpty
  let b7 := writeGroupLines indent h6 g.ProjectInternal
  b1 ++ b2 ++ b3 ++ b4 ++ b5 ++ b6 ++ b7

/-- The scanning loop of `formatter.RewriteFile`, producing output lines.
State: `foundFirstImport`, `inImportBlock`, `skipImportLines`. -/
def rewriteAux (g : ImportGroups) : Bool → Bool → Bool → List GoStr → List GoStr
  | _, _, _, [] => []
  | found, inB, skip, line :: rest =>
    let t := goTrim line
    if t = opener then
      if found = false then
        line :: (importBody (goTrimSfx line opener) g ++ rewriteAux g true true skip rest)
      else rewriteAux g found inB true rest
    else if inB ∧ t = closer then
      line :: rewriteAux g found false skip rest
    else if skip then
      if t = closer then rewriteAux g found inB false rest else rewriteAux g found inB skip rest
    else if inB then rewriteAux g found inB skip rest
    else line :: rewriteAux g found inB skip rest

/-- `formatter.RewriteFile` (the scanner error path cannot occur on an
in-memory buffer). -/
def RewriteFile (code : GoStr) (g : ImportGroups) : GoStr :=
  renderLines (rewriteAux g false false false (splitLines code))

/-- One application of the full transform: extract, classify, rewrite
(the `prefixes` argument of `GroupImports` is ignored by it). -/
def transformOnce (repo : RepoConfig) (code : GoStr) : GoStr :=
  RewriteFile code (GroupImports (CollectImports code) [] repo)

/-! Spec-side definitions: formalizations of the specification's wording, to be
compared with the definitions translated from the source. -/

/-- The group list selected by a tag. -/
def fieldOf (g : ImportGroups) : GroupTag → List GoImport
  | .stdlib => g.Stdlib
  | .external => g.External
  | .orgCommon => g.OrgCommon
  | .domainCommon => g.DomainCommon
  | .repoOther => g.RepoOther
  | .projectPkg => g.ProjectPkg
  | .projectInternal => g.ProjectInternal

/-- The seven groups in their fixed emission order. -/
def sevenList (g : ImportGroups) : List (List GoImport) :=
  [g.Stdlib, g.External, g.OrgCommon, g.DomainCommon, g.RepoOther, g.ProjectPkg,
    g.ProjectInternal]

/-- The concatenation of the seven groups in emission order. -/
def concatG (g : ImportGroups) : List GoImport := (sevenList g).flatten

/-- Spec wording of deduplication: keep the first occurrence of each path
(so the earliest-encountered alias wins); later duplicates are dropped. -/
def dedupFirstAux (seen : List GoStr) : List GoImport → List GoImport
  | [] => []
  | i :: rest =>
    if i.Path ∈ seen then dedupFirstAux seen rest
    else i :: dedupFirstAux (i.Path :: seen) rest

def dedupFirst (l : List GoImport) : List GoImport := dedupFirstAux [] l

/-- Spec wording of the seven-tier precedence chain (claim C3): first match
wins; Stdlib iff no dot; else External iff not under the org; else OrgCommon
iff common, additional-common, or org-but-not-repo; else DomainCommon iff the
domain part; else ProjectPkg (project detected, under its path, `/pkg/`); else
ProjectInternal (likewise with `/internal/`); else RepoOther. -/
def claimClassify (repo : RepoConfig) (projPfx : GoStr) (path : GoStr) : GroupTag :=
  if ¬goContains path (str ".") = true then .stdlib
  else if ¬repo.OrgPfx.isPrefixOf path = true then .external
  else if repo.CommonPfx.isPrefixOf path = true ∨ pfxAny path repo.AdditionalCommonPfxs = true ∨
      (repo.OrgPfx.isPrefixOf path = true ∧ ¬repo.RepoPfx.isPrefixOf path = true) then
    .orgCommon
  else if repo.DomainPfx.isPrefixOf path = true then .domainCommon
  else if projPfx ≠ [] ∧ projPfx.isPrefixOf path = true ∧ goContains path (str "/pkg/") = true then
    .projectPkg
  else if projPfx ≠ [] ∧ projPfx.isPrefixOf path = true ∧
      goContains path (str "/internal/") = true then .projectInternal
  else .repoOther

/-- Spec wording of the body layout (claim C6): the non-empty rendered groups,
in fixed order, where each non-empty group after the first emitted one is
preceded by exactly one blank line and the leading group has none. -/
def specJoinBody (pieces : List (List GoStr)) : List GoStr :=
  match pieces.filter (fun p => ¬p.isEmpty) with
  | [] => []
  | q :: qs => q ++ qs.flatMap (fun p => [] :: p)

/-- The `hasContent` threading of `RewriteFile`, abstracted over a list of
rendered groups (bridging definition between `importBody` and `specJoinBody`). -/
def codeJoin : Bool → List (List GoStr) → List GoStr
  | _, [] => []
  | need, p :: ps =>
    (if p.isEmpty then [] else (if need then [([] : GoStr)] else []) ++ p) ++
      codeJoin (need || !p.isEmpty) ps

/-- Spec wording of the rewriter's behaviour after the first import block
(claims C4, C9): lines pass through verbatim, except that every later
`import (` block — opening line, interior, and closing line — is deleted.
The Boolean state records being inside such a block. -/
def specAfterSt : Bool → List GoStr → List GoStr
  | _, [] => []
  | false, l :: rest =>
    if goTrim l = opener then specAfterSt true rest else l :: specAfterSt false rest
  | true, l :: rest =>
    if goTrim l = closer then specAfterSt false rest else specAfterSt true rest

def specAfter (ls : List GoStr) : List GoStr := specAfterSt false ls

/-- Claim C5's wording of the per-path candidate: the segment after THE (first)
occurrence of the domain segment; a candidate equal to `pkg` disqualifies
the whole path. -/
def claimScanParts (d : GoStr) : List GoStr → List GoStr → GoStr
  | before, p :: q :: rest =>
    if p = d then (if q = str "pkg" then [] else List.intercalate ['/'] (before ++ [p, q]))
    else claimScanParts d (before ++ [p]) (q :: rest)
  | _, _ => []

def claimDetectOne (d path : GoStr) : GoStr :=
  if d ≠ [] ∧ goContains path (str "/projects/" ++ d ++ str "/") = true ∧
      (goContains path (str "/internal/") = true ∨ goContains path (str "/pkg/") = true) then
    claimScanParts d [] (splitOnChar '/' path)
  else []

def claimDetectProject (d : GoStr) : List GoImport → GoStr
  | [] => []
  | imp :: rest =>
    let v := claimDetectOne d imp.Path
    if v = [] then claimDetectProject d rest else v

/-- Index of the first slash segment equal to `d` whose successor segment
exists and is not `pkg` (amended claim C5). -/
def amendedIdx (d : GoStr) : List GoStr → Option Nat
  | p :: q :: rest =>
    if p = d ∧ q ≠ str "pkg" then some 0
    else (amendedIdx d (q :: rest)).map (· + 1)
  | _ => none

/-- Amended claim C5's wording of the candidate: truncate the path through the
segment after the first occurrence of the domain segment that is followed by a
segment other than `pkg`; no such occurrence disqualifies the path. -/
def amendedScan (d : GoStr) (parts : List GoStr) : GoStr :=
  match amendedIdx d parts with
  | none => []
  | some i => List.intercalate ['/'] (parts.take (i + 2))

def amendedDetectOne (d path : GoStr) : GoStr :=
  if d ≠ [] ∧ goContains path (str "/projects/" ++ d ++ str "/") = true ∧
      (goContains path (str "/internal/") = true ∨ goContains path (str "/pkg/") = true) then
    amendedScan d (splitOnChar '/' path)
  else []

def amendedDetectProject (d : GoStr) : List GoImport → GoStr
  | [] => []
  | imp :: rest =>
    let v := amendedDetectOne d imp.Path
    if v = [] then amendedDetectProject d rest else v

/-! Predicates used as hypotheses. -/

/-- No line of the list is, after trimming, an `import (` opener. -/
def noOpen (ls : List GoStr) : Prop := ∀ l ∈ ls, goTrim l ≠ opener

instance (ls : List GoStr) : Decidable (noOpen ls) := by
  unfold noOpen; infer_instance

/-- A character that `strconv.Quote` emits verbatim: printable ASCII other than
quote and backslash. -/
def PlainChar (c : Char) : Prop := ¬(c = '"' ∨ c = '\\') ∧ 0x20 ≤ c.toNat ∧ c.toNat < 0x7f

instance (c : Char) : Decidable (PlainChar c) := by
  unfold PlainChar; infer_instance

def PlainStr (p : GoStr) : Prop := ∀ c ∈ p, PlainChar c

instance (p : GoStr) : Decidable (PlainStr p) := by
  unfold PlainStr; infer_instance

/-- A line that round-trips through rendering followed by line scanning:
no embedded newline and no trailing carriage return. -/
def cleanLine (l : GoStr) : Prop := '\n' ∉ l ∧ dropCR l = l

instance (l : GoStr) : Decidable (cleanLine l) := by
  unfold cleanLine; infer_instance

/-! Concrete inputs used by counterexamples and witnesses. -/

/-- The repository configuration from `formatter_test.go` / `install_vk.sh`. -/
def vkRepo : RepoConfig :=
  { OrgPfx := str "gitlab.mvk.com"
    RepoPfx := str "gitlab.mvk.com/go/vkgo"
    CommonPfx := str "gitlab.mvk.com/go/vkgo/pkg"
    DomainPfx := str "gitlab.mvk.com/go/vkgo/projects/health/pkg"
    ProjectsTemplate := str "gitlab.mvk.com/go/vkgo/projects/health/%s"
    AdditionalCommonPfxs := [str "gitlab.mvk.com/vkapi/vk-go-sdk-private"] }

/-- A file whose first import block mentions two projects (`courses` and
`workouts`) under the `projects/health` tree. -/
def twoProjectsT : GoStr :=
  str "import (\n\t\"gitlab.mvk.com/go/vkgo/projects/health/courses/pkg/convert\"\n\t\"gitlab.mvk.com/go/vkgo/projects/health/workouts/internal/core\"\n)\n"

/-- A single-project file (the Go test fixture, first test case). -/
def stdlibT : GoStr :=
  str "package test\n\nimport (\n    \"fmt\"\n    \"strings\"\n    \"context\"\n)\n\nfunc main() \x7b\n    fmt.Println(\"test\")\n\x7d\n"

/-- A file with a CRLF line-ending on a line outside the import block. -/
def crlfT : GoStr := str "a\r\nimport (\n\t\"fmt\"\n)\n"

/-- A file whose `import (` line carries trailing whitespace. -/
def trailingWsT : GoStr := str "import ( \n)\n"

/-- Groups holding a single stdlib import `fmt`. -/
def fmtOnlyG : ImportGroups := { emptyGroups with Stdlib := [⟨[], str "fmt"⟩] }

/-- A file with two import blocks (claim C9 witness). -/
def twoBlocksT : GoStr :=
  str "package test\n\nimport (\n\t\"fmt\"\n)\n\nvar x = 1\n\nimport (\n\t\"os\"\n)\n\nfunc main() \x7b\x7d\n"

/-- An import whose path passes `/projects/health/` and `/internal/` checks,
with the first `health` segment followed by `pkg` and a later one followed by
`steps` (claim C5 counterexample). -/
def doubleDomainImp : GoImport := ⟨[], str "x.y/projects/health/pkg/health/steps/internal/a"⟩

/-- `leImp a b`: `a`'s path is not strictly greater than `b`'s (the sortedness
relation produced by sorting ascending by path). -/
def leImp (a b : GoImport) : Prop := ltStr b.Path a.Path = false

/-! Theorems.  First, facts about the byte-wise order and the sort. -/

theorem ltStr_irrefl : ∀ a : GoStr, ltStr a a = false := by
  intro a
  induction a with
  | nil => rfl
  | cons c r ih => simp [ltStr, ih]

theorem ltStr_asymm : ∀ a b : GoStr, ltStr a b = true → ltStr b a = false := by
  intro a
  induction a with
  | nil => intro b h; cases b with
    | nil => simp [ltStr] at h
    | cons c r => simp [ltStr]
  | cons c r ih =>
    intro b h
    cases b with
    | nil => simp [ltStr] at h
    | cons d s =>
      simp only [ltStr] at h ⊢
      rcases Nat.lt_trichotomy c.toNat d.toNat with hlt | heq | hgt
      · simp [hlt, Nat.lt_asymm hlt]
      · simp [heq, Nat.lt_irrefl] at h ⊢
        exact ih s h
      · simp [hgt, Nat.lt_asymm hgt] at h

theorem ltStr_trans : ∀ a b c : GoStr,
    ltStr a b = true → ltStr b c = true → ltStr a c = true := by
  intro a
  induction a with
  | nil =>
    intro b c hab hbc
    cases b with
    | nil => simp [ltStr] at hab
    | cons d s =>
      cases c with
      | nil => simp [ltStr] at hbc
      | cons e u => simp [ltStr]
  | cons x r ih =>
    intro b c hab hbc
    cases b with
    | nil => simp [ltStr] at hab
    | cons d s =>
      cases c with
      | nil => simp [ltStr] at hbc
      | cons e u =>
        simp only [ltStr] at hab hbc ⊢
        rcases Nat.lt_trichotomy x.toNat d.toNat with h1 | h1 | h1
        · rcases Nat.lt_trichotomy d.toNat e.toNat with h2 | h2 | h2
          · simp [Nat.lt_trans h1 h2]
          · simp [h2 ▸ h1]
          · simp [h2, Nat.lt_asymm h2] at hbc
        · rcases Nat.lt_trichotomy d.toNat e.toNat with h2 | h2 | h2
          · simp [h1 ▸ h2]
          · have hxe : x.toNat = e.toNat := h1.trans h2
            simp [h1, Nat.lt_irrefl] at hab
            simp [h2, Nat.lt_irrefl] at hbc
            simp [hxe, Nat.lt_irrefl]
            exact ih s u hab hbc
          · simp [h2, Nat.lt_asymm h2] at hbc
        · simp [h1, Nat.lt_asymm h1] at hab

theorem leImp_total : ∀ a b : GoImport, leImp a b ∨ leImp b a := by
  intro a b
  by_cases h : ltStr b.Path a.Path = true
  · exact Or.inr (ltStr_asymm _ _ h)
  · exact Or.inl ((Bool.not_eq_true _).mp h)

theorem ltStr_trichot : ∀ a b : GoStr, ltStr a b = true ∨ a = b ∨ ltStr b a = true := by
  intro a
  induction a with
  | nil => intro b; cases b with
    | nil => exact Or.inr (Or.inl rfl)
    | cons d s => exact Or.inl (by simp [ltStr])
  | cons c r ih =>
    intro b
    cases b with
    | nil => exact Or.inr (Or.inr (by simp [ltStr]))
    | cons d s =>
      rcases Nat.lt_trichotomy c.toNat d.toNat with h | h | h
      · exact Or.inl (by simp [ltStr, h])
      · have hcd : c = d := Char.eq_of_val_eq (UInt32.ext h)
        rcases ih s with h2 | h2 | h2
        · exact Or.inl (by simp [ltStr, h, Nat.lt_irrefl, h2])
        · exact Or.inr (Or.inl (by rw [hcd, h2]))
        · exact Or.inr (Or.inr (by simp [ltStr, h.symm, Nat.lt_irrefl, h2]))
      · exact Or.inr (Or.inr (by simp [ltStr, h]))

theorem leImp_trans : ∀ a b c : GoImport, leImp a b → leImp b c → leImp a c := by
  intro a b c hab hbc
  unfold leImp at *
  rcases Bool.eq_false_or_eq_true (ltStr c.Path a.Path) with h | h
  · exfalso
    rcases ltStr_trichot c.Path b.Path with h1 | h1 | h1
    · rw [h1] at hbc; cases hbc
    · rw [h1] at h; rw [h] at hab; cases hab
    · have h2 := ltStr_trans _ _ _ h1 h
      rw [h2] at hab; cases hab
  · exact h

theorem insertImp_perm (a : GoImport) (l : List GoImport) : (insertImp a l).Perm (a :: l) := by
  induction l with
  | nil => exact List.Perm.refl _
  | cons b rest ih =>
    by_cases h : ltStr b.Path a.Path = true
    · simp only [insertImp, h, if_true]
      exact (ih.cons b).trans (List.Perm.swap a b rest)
    · simp only [insertImp, h, if_false, Bool.false_eq_true]
      exact List.Perm.refl _

theorem sortImports_perm (l : List GoImport) : (sortImports l).Perm l := by
  induction l with
  | nil => exact List.Perm.refl _
  | cons a rest ih =>
    exact (insertImp_perm a (sortImports rest)).trans (ih.cons a)

theorem insertImp_sorted (a : GoImport) (l : List GoImport) (h : l.Pairwise leImp) :
    (insertImp a l).Pairwise leImp := by
  induction l with
  | nil => simp [insertImp]
  | cons b rest ih =>
    rcases List.pairwise_cons.mp h with ⟨hb, hrest⟩
    by_cases hba : ltStr b.Path a.Path = true
    · simp only [insertImp, hba, if_true]
      refine List.pairwise_cons.mpr ⟨?_, ih hrest⟩
      intro x hx
      have hx' : x ∈ a :: rest := ((insertImp_perm a rest).mem_iff).mp hx
      rcases List.mem_cons.mp hx' with hxa | hxr
      · rw [hxa]; exact ltStr_asymm _ _ hba
      · exact hb x hxr
    · simp only [insertImp, hba, if_false, Bool.false_eq_true]
      have hab : leImp a b := (Bool.not_eq_true _).mp hba
      refine List.pairwise_cons.mpr ⟨?_, h⟩
      intro x hx
      rcases List.mem_cons.mp hx with hxb | hxr
      · rw [hxb]; exact hab
      · exact leImp_trans a b x hab (hb x hxr)

theorem sortImports_sorted (l : List GoImport) : (sortImports l).Pairwise leImp := by
  induction l with
  | nil => simp [sortImports]
  | cons a rest ih => exact insertImp_sorted a (sortImports rest) ih

theorem sortImports_eq_of_sorted (l : List GoImport) (h : l.Pairwise leImp) :
    sortImports l = l := by
  induction l with
  | nil => rfl
  | cons a rest ih =>
    rcases List.pairwise_cons.mp h with ⟨ha, hrest⟩
    show insertImp a (sortImports rest) = a :: rest
    rw [ih hrest]
    cases rest with
    | nil => rfl
    | cons b r =>
      have hab : leImp a b := ha b (List.mem_cons_self b r)
      simp only [insertImp, hab, if_false]
      unfold leImp at hab
      simp [hab]

theorem mem_sortImports {x : GoImport} {l : List GoImport} :
    x ∈ sortImports l ↔ x ∈ l := (sortImports_perm l).mem_iff

theorem concatG_eq (g : ImportGroups) :
    concatG g = g.Stdlib ++ g.External ++ g.OrgCommon ++ g.DomainCommon ++ g.RepoOther ++
      g.ProjectPkg ++ g.ProjectInternal := by
  simp [concatG, sevenList, List.append_assoc]

theorem concatG_appendG (acc : ImportGroups) (t : GroupTag) (i : GoImport) :
    (concatG (appendG acc t i)).Perm (i :: concatG acc) := by
  obtain ⟨s, e, o, d, r, p, q⟩ := acc
  cases t with
  | stdlib =>
    have h := @List.perm_middle _ i s (e ++ o ++ d ++ r ++ p ++ q)
    simp only [concatG, sevenList, appendG, List.flatten, List.append_nil, List.append_assoc]
    simp only [List.append_assoc] at h
    exact h
  | external =>
    simpa [concatG, sevenList, appendG, List.append_assoc] using
      @List.perm_middle _ i (s ++ e) (o ++ d ++ r ++ p ++ q)
  | orgCommon =>
    simpa [concatG, sevenList, appendG, List.append_assoc] using
      @List.perm_middle _ i (s ++ e ++ o) (d ++ r ++ p ++ q)
  | domainCommon =>
    simpa [concatG, sevenList, appendG, List.append_assoc] using
      @List.perm_middle _ i (s ++ e ++ o ++ d) (r ++ p ++ q)
  | repoOther =>
    simpa [concatG, sevenList, appendG, List.append_assoc] using
      @List.perm_middle _ i (s ++ e ++ o ++ d ++ r) (p ++ q)
  | projectPkg =>
    simpa [concatG, sevenList, appendG, List.append_assoc] using
      @List.perm_middle _ i (s ++ e ++ o ++ d ++ r ++ p) q
  | projectInternal =>
    simpa [concatG, sevenList, appendG, List.append_assoc] using
      @List.perm_middle _ i (s ++ e ++ o ++ d ++ r ++ p ++ q) []

theorem concatG_groupAux (cls : GoStr → GroupTag) :
    ∀ (l : List GoImport) (acc : ImportGroups) (seen : List GoStr),
    (concatG (groupAux cls acc seen l)).Perm (concatG acc ++ dedupFirstAux seen l) := by
  intro l
  induction l with
  | nil => intro acc seen; simp [groupAux, dedupFirstAux]
  | cons i rest ih =>
    intro acc seen
    by_cases h : i.Path ∈ seen
    · simp only [groupAux, dedupFirstAux, if_pos h]
      exact ih acc seen
    · simp only [groupAux, dedupFirstAux, h, if_false, if_neg h]
      have h1 := ih (appendG acc (cls i.Path) i) (i.Path :: seen)
      have h2 : (concatG (appendG acc (cls i.Path) i) ++
          dedupFirstAux (i.Path :: seen) rest).Perm
          ((i :: concatG acc) ++ dedupFirstAux (i.Path :: seen) rest) :=
        (concatG_appendG acc (cls i.Path) i).append_right _
      refine (h1.trans h2).trans ?_
      simpa [List.append_assoc] using
        (@List.perm_middle _ i (concatG acc) (dedupFirstAux (i.Path :: seen) rest)).symm

theorem concatG_GroupImports (imports : List GoImport) (pfxs : List GoStr) (repo : RepoConfig) :
    (concatG (GroupImports imports pfxs repo)).Perm (dedupFirst imports) := by
  unfold GroupImports dedupFirst
  have hsort : (concatG
      { Stdlib := sortImports (groupAux (classifyPath repo
          (detectProject (extractDomainFromTemplate repo.ProjectsTemplate) imports))
          emptyGroups [] imports).Stdlib
        External := sortImports (groupAux (classifyPath repo
          (detectProject (extractDomainFromTemplate repo.ProjectsTemplate) imports))
          emptyGroups [] imports).External
        OrgCommon := sortImports (groupAux (classifyPath repo
          (detectProject (extractDomainFromTemplate repo.ProjectsTemplate) imports))
          emptyGroups [] imports).OrgCommon
        DomainCommon := sortImports (groupAux (classifyPath repo
          (detectProject (extractDomainFromTemplate repo.ProjectsTemplate) imports))
          emptyGroups [] imports).DomainCommon
        RepoOther := sortImports (groupAux (classifyPath repo
          (detectProject (extractDomainFromTemplate repo.ProjectsTemplate) imports))
          emptyGroups [] imports).RepoOther
        ProjectPkg := sortImports (groupAux (classifyPath repo
          (detectProject (extractDomainFromTemplate repo.ProjectsTemplate) imports))
          emptyGroups [] imports).ProjectPkg
        ProjectInternal := sortImports (groupAux (classifyPath repo
          (detectProject (extractDomainFromTemplate repo.ProjectsTemplate) imports))
          emptyGroups [] imports).ProjectInternal } : List GoImport).Perm
      (concatG (groupAux (classifyPath repo
        (detectProject (extractDomainFromTemplate repo.ProjectsTemplate) imports))
        emptyGroups [] imports)) := by
    simp only [concatG_eq]
    exact ((((((sortImports_perm _).append (sortImports_perm _)).append
      (sortImports_perm _)).append (sortImports_perm _)).append
      (sortImports_perm _)).append (sortImports_perm _)).append (sortImports_perm _)
  refine hsort.trans ?_
  simpa [concatG, sevenList, emptyGroups] using
    concatG_groupAux (classifyPath repo
      (detectProject (extractDomainFromTemplate repo.ProjectsTemplate) imports))
      imports emptyGroups []

theorem dedupFirstAux_subset {i : GoImport} :
    ∀ (l : List GoImport) (seen : List GoStr), i ∈ dedupFirstAux seen l → i ∈ l := by
  intro l
  induction l with
  | nil => intro seen h; simp [dedupFirstAux] at h
  | cons j rest ih =>
    intro seen h
    by_cases hj : j.Path ∈ seen
    · simp only [dedupFirstAux, if_pos hj] at h
      exact List.mem_cons_of_mem _ (ih seen h)
    · simp only [dedupFirstAux, if_neg hj] at h
      rcases List.mem_cons.mp h with h1 | h1
      · rw [h1]; exact List.mem_cons_self j rest
      · exact List.mem_cons_of_mem _ (ih _ h1)

theorem dedupFirstAux_path_mem (p : GoStr) :
    ∀ (l : List GoImport) (seen : List GoStr),
    p ∈ (dedupFirstAux seen l).map GoImport.Path ↔
      p ∈ l.map GoImport.Path ∧ p ∉ seen := by
  intro l
  induction l with
  | nil => intro seen; simp [dedupFirstAux]
  | cons j rest ih =>
    intro seen
    by_cases hj : j.Path ∈ seen
    · simp only [dedupFirstAux, if_pos hj, List.map_cons, List.mem_cons]
      rw [ih seen]
      constructor
      · rintro ⟨h1, h2⟩; exact ⟨Or.inr h1, h2⟩
      · rintro ⟨h1 | h1, h2⟩
        · exact absurd (h1 ▸ hj) h2
        · exact ⟨h1, h2⟩
    · simp only [dedupFirstAux, if_neg hj, List.map_cons, List.mem_cons]
      rw [ih (j.Path :: seen)]
      constructor
      · rintro (h1 | ⟨h1, h2⟩)
        · exact ⟨Or.inl h1, h1 ▸ hj⟩
        · exact ⟨Or.inr h1, fun hs => h2 (List.mem_cons_of_mem _ hs)⟩
      · rintro ⟨h1 | h1, h2⟩
        · exact Or.inl h1
        · by_cases hpj : p = j.Path
          · exact Or.inl hpj
          · exact Or.inr ⟨h1, fun hs => (List.mem_cons.mp hs).elim hpj h2⟩

theorem dedupFirstAux_nodup :
    ∀ (l : List GoImport) (seen : List GoStr),
    ((dedupFirstAux seen l).map GoImport.Path).Nodup := by
  intro l
  induction l with
  | nil => intro seen; simp [dedupFirstAux]
  | cons j rest ih =>
    intro seen
    by_cases hj : j.Path ∈ seen
    · simp only [dedupFirstAux, if_pos hj]; exact ih seen
    · simp only [dedupFirstAux, if_neg hj, List.map_cons]
      refine List.nodup_cons.mpr ⟨?_, ih (j.Path :: seen)⟩
      intro hmem
      exact ((dedupFirstAux_path_mem j.Path rest (j.Path :: seen)).mp hmem).2
        (List.mem_cons_self _ _)

theorem dedupFirstAux_eq_self :
    ∀ (l : List GoImport) (seen : List GoStr), (l.map GoImport.Path).Nodup →
    (∀ p ∈ l.map GoImport.Path, p ∉ seen) → dedupFirstAux seen l = l := by
  intro l
  induction l with
  | nil => intro seen _ _; rfl
  | cons j rest ih =>
    intro seen hnd hdisj
    have hj : j.Path ∉ seen := hdisj j.Path (by simp)
    simp only [dedupFirstAux, if_neg hj]
    congr 1
    have hnd' : (j.Path :: rest.map GoImport.Path).Nodup := by simpa using hnd
    rcases List.nodup_cons.mp hnd' with ⟨hjr, hrest⟩
    refine ih (j.Path :: seen) hrest ?_
    intro p hp hmem
    rcases List.mem_cons.mp hmem with h1 | h1
    · exact hjr (h1 ▸ hp)
    · exact hdisj p (List.mem_cons_of_mem _ hp) h1

theorem mem_dedupFirst {i : GoImport} {l : List GoImport} (h : i ∈ dedupFirst l) : i ∈ l :=
  dedupFirstAux_subset l [] h

theorem mem_concatG_GroupImports {i : GoImport} {imports : List GoImport} {pfxs : List GoStr}
    {repo : RepoConfig} (h : i ∈ concatG (GroupImports imports pfxs repo)) : i ∈ imports :=
  mem_dedupFirst ((concatG_GroupImports imports pfxs repo).mem_iff.mp h)

theorem fieldOf_emptyGroups (t : GroupTag) : fieldOf emptyGroups t = [] := by
  cases t <;> rfl

theorem fieldOf_appendG (acc : ImportGroups) (t t' : GroupTag) (i : GoImport) :
    fieldOf (appendG acc t i) t' = fieldOf acc t' ++ (if t = t' then [i] else []) := by
  cases t <;> cases t' <;> simp [appendG, fieldOf]

theorem fieldOf_groupAux (cls : GoStr → GroupTag) :
    ∀ (l : List GoImport) (acc : ImportGroups) (seen : List GoStr) (t : GroupTag),
    fieldOf (groupAux cls acc seen l) t =
      fieldOf acc t ++ (dedupFirstAux seen l).filter (fun i => decide (cls i.Path = t)) := by
  intro l
  induction l with
  | nil => intro acc seen t; simp [groupAux, dedupFirstAux]
  | cons i rest ih =>
    intro acc seen t
    by_cases h : i.Path ∈ seen
    · simp only [groupAux, dedupFirstAux, if_pos h]
      exact ih acc seen t
    · simp only [groupAux, dedupFirstAux, if_neg h]
      rw [ih (appendG acc (cls i.Path) i) (i.Path :: seen) t, fieldOf_appendG]
      by_cases ht : cls i.Path = t
      · simp [ht, List.append_assoc]
      · simp [ht]

theorem fieldOf_GroupImports (imports : List GoImport) (pfxs : List GoStr) (repo : RepoConfig)
    (t : GroupTag) :
    fieldOf (GroupImports imports pfxs repo) t =
      sortImports ((dedupFirst imports).filter (fun i =>
        decide (classifyPath repo
          (detectProject (extractDomainFromTemplate repo.ProjectsTemplate) imports) i.Path = t))) := by
  have hfield := fieldOf_groupAux (classifyPath repo
    (detectProject (extractDomainFromTemplate repo.ProjectsTemplate) imports))
    imports emptyGroups [] t
  rw [fieldOf_emptyGroups] at hfield
  simp only [List.nil_append] at hfield
  cases t <;> simp only [GroupImports, fieldOf, dedupFirst] <;> rw [← hfield] <;> simp [fieldOf]

theorem mem_fieldOf_GroupImports {i : GoImport} {imports : List GoImport} {pfxs : List GoStr}
    {repo : RepoConfig} {t : GroupTag} (h : i ∈ fieldOf (GroupImports imports pfxs repo) t) :
    classifyPath repo (detectProject (extractDomainFromTemplate repo.ProjectsTemplate) imports)
      i.Path = t := by
  rw [fieldOf_GroupImports] at h
  have h2 := mem_sortImports.mp h
  have h3 := List.of_mem_filter h2
  exact of_decide_eq_true h3

theorem classifyPath_eq_claimClassify (repo : RepoConfig) (projPfx path : GoStr) :
    classifyPath repo projPfx path = claimClassify repo projPfx path := by
  unfold classifyPath claimClassify
  cases h1 : goContains path (str ".") with
  | false => simp [h1]
  | true =>
    cases h2 : repo.OrgPfx.isPrefixOf path with
    | false => simp [h1, h2]
    | true =>
      simp only [h1, h2, Bool.true_eq_false, not_true, not_false_iff, if_true, if_false,
        ← Bool.not_eq_true]

/-- C2: for every list of imports and every `RepoConfig`, the union of the seven
sequences returned by `GroupImports` (as path sets) equals the set of distinct
paths of the input list, and no path occurs twice across (or within) the seven
groups. -/
theorem groupImports_partition (imports : List GoImport) (pfxs : List GoStr)
    (repo : RepoConfig) :
    ((concatG (GroupImports imports pfxs repo)).map GoImport.Path).Nodup ∧
      ∀ p : GoStr, p ∈ (concatG (GroupImports imports pfxs repo)).map GoImport.Path ↔
        p ∈ imports.map GoImport.Path := by
  have hperm := (concatG_GroupImports imports pfxs repo).map GoImport.Path
  constructor
  · exact hperm.nodup_iff.mpr (dedupFirstAux_nodup imports [])
  · intro p
    rw [hperm.mem_iff]
    unfold dedupFirst
    rw [dedupFirstAux_path_mem]
    simp

/-- C3: classification follows the fixed seven-tier precedence chain, first
match wins, each import evaluated independently against the original repo
config: each group of `GroupImports` consists exactly of the deduplicated
input imports that the chain assigns to it (sorted). -/
theorem groupImports_classification_chain (imports : List GoImport) (pfxs : List GoStr)
    (repo : RepoConfig) (t : GroupTag) :
    fieldOf (GroupImports imports pfxs repo) t =
      sortImports ((dedupFirst imports).filter (fun i =>
        decide (claimClassify repo
          (detectProject (extractDomainFromTemplate repo.ProjectsTemplate) imports)
          i.Path = t))) := by
  rw [fieldOf_GroupImports]
  congr 1
  apply List.filter_congr
  intro i _
  rw [classifyPath_eq_claimClassify]

/-- C8: duplicate collapsing — the imports emitted by `GroupImports` are, up to
the group partition's reordering, exactly the input with every repeated path
dropped after its first occurrence (the earliest alias wins, later duplicates
are dropped entirely, across all groups). -/
theorem groupImports_dedupFirst (imports : List GoImport) (pfxs : List GoStr)
    (repo : RepoConfig) :
    (concatG (GroupImports imports pfxs repo)).Perm (dedupFirst imports) :=
  concatG_GroupImports imports pfxs repo

/-- C10: the `prefixes` argument of `GroupImports` has no effect: any two
prefix lists produce identical output. -/
theorem groupImports_ignores_pfxs (imports : List GoImport) (p1 p2 : List GoStr)
    (repo : RepoConfig) :
    GroupImports imports p1 repo = GroupImports imports p2 repo := rfl

theorem scanParts_eq_amended (d : GoStr) :
    ∀ (parts before : List GoStr),
    scanParts d before parts =
      (match amendedIdx d parts with
        | none => []
        | some i => List.intercalate ['/'] (before ++ parts.take (i + 2))) := by
  intro parts
  induction parts with
  | nil => intro before; rfl
  | cons p rest ih =>
    intro before
    cases rest with
    | nil => rfl
    | cons q rest' =>
      by_cases h : p = d ∧ q ≠ str "pkg"
      · simp only [scanParts, amendedIdx, if_pos h]
        rfl
      · simp only [scanParts, amendedIdx, if_neg h]
        rw [ih (before ++ [p])]
        cases hidx : amendedIdx d (q :: rest') with
        | none => simp [hidx]
        | some i =>
          simp only [hidx, Option.map_some]
          congr 1
          simp [List.append_assoc, List.take_succ_cons]

theorem detectOne_eq_amended (d path : GoStr) : detectOne d path = amendedDetectOne d path := by
  unfold detectOne amendedDetectOne amendedScan
  by_cases h : d ≠ [] ∧ goContains path (str "/projects/" ++ d ++ str "/") = true ∧
      (goContains path (str "/internal/") = true ∨ goContains path (str "/pkg/") = true)
  · simp only [if_pos h]
    rw [scanParts_eq_amended d (splitOnChar '/' path) []]
    simp
  · simp only [if_neg h]

theorem detectProject_eq_amended (d : GoStr) :
    ∀ imports : List GoImport, detectProject d imports = amendedDetectProject d imports := by
  intro imports
  induction imports with
  | nil => rfl
  | cons i rest ih =>
    simp only [detectProject, amendedDetectProject, detectOne_eq_amended, ih]

/-- C5 counterexample: with the repo's domain segment `health`, a path whose
first `health` segment is followed by `pkg` but whose second is followed by
`steps` does qualify in the code (yielding project path `.../steps`), while the
claim's rule — candidate taken at THE occurrence of the domain segment, `pkg`
rejected — says the path does not qualify. -/
theorem detectProject_counterexample :
    detectProject (extractDomainFromTemplate vkRepo.ProjectsTemplate) [doubleDomainImp] =
        str "x.y/projects/health/pkg/health/steps" ∧
      claimDetectProject (extractDomainFromTemplate vkRepo.ProjectsTemplate)
        [doubleDomainImp] = [] ∧
      detectProject (extractDomainFromTemplate vkRepo.ProjectsTemplate) [doubleDomainImp] ≠
        claimDetectProject (extractDomainFromTemplate vkRepo.ProjectsTemplate)
          [doubleDomainImp] := by
  refine ⟨by decide, by decide, by decide⟩

/-- C5 (amended): project-name inference scans imports in original order for
the first path containing `/projects/<domainSegment>/` and `/internal/` or
`/pkg/`; within that path the candidate is taken at the first occurrence of the
domain segment that is followed by a further segment other than `pkg` (not
merely the first occurrence); a path all of whose domain-segment occurrences
are followed by `pkg` or end the path does not qualify, and the scan moves on
to later imports; if no import qualifies, no project is detected. -/
theorem detectProject_amended (repo : RepoConfig) (imports : List GoImport) :
    detectProject (extractDomainFromTemplate repo.ProjectsTemplate) imports =
      amendedDetectProject (extractDomainFromTemplate repo.ProjectsTemplate) imports :=
  detectProject_eq_amended _ imports

theorem isEmpty_map {α β : Type} (f : α → β) (l : List α) : (l.map f).isEmpty = l.isEmpty := by
  cases l <;> simp

theorem importBody_eq_codeJoin (indent : GoStr) (g : ImportGroups) :
    importBody indent g = codeJoin false ((sevenList g).map (List.map (entryLine indent))) := by
  simp only [importBody, writeGroupLines, codeJoin, sevenList, List.map_cons, List.map_nil,
    isEmpty_map, Bool.false_or, List.append_nil, List.append_assoc]

theorem codeJoin_true (ps : List (List GoStr)) :
    codeJoin true ps = (ps.filter (fun p => ¬p.isEmpty)).flatMap (fun p => [] :: p) := by
  induction ps with
  | nil => rfl
  | cons p rest ih =>
    by_cases hp : p = []
    · subst hp; simpa [codeJoin] using ih
    · simp [codeJoin, hp, ih, List.isEmpty_iff]

theorem codeJoin_false (ps : List (List GoStr)) : codeJoin false ps = specJoinBody ps := by
  induction ps with
  | nil => rfl
  | cons p rest ih =>
    by_cases hp : p = []
    · subst hp; simpa [codeJoin, specJoinBody] using ih
    · have hpe : p.isEmpty = false := by simp [List.isEmpty_iff, hp]
      have h1 : codeJoin false (p :: rest) = p ++ codeJoin true rest := by
        simp [codeJoin, hpe]
      have h2 : specJoinBody (p :: rest) =
          p ++ (rest.filter (fun q => ¬q.isEmpty)).flatMap (fun q => [] :: q) := by
        simp [specJoinBody, List.filter_cons, hpe, hp]
      rw [h1, h2, codeJoin_true]

/-- C6: output group ordering — the synthesized body consists of the rendered
seven groups in the fixed order Stdlib, External, OrgCommon, DomainCommon,
RepoOther, ProjectPkg, ProjectInternal, with each non-empty group after the
first emitted one preceded by exactly one blank line (none before the leading
group), and within each group paths are non-decreasing in byte-wise order. -/
theorem importBody_layout (imports : List GoImport) (pfxs : List GoStr) (repo : RepoConfig)
    (indent : GoStr) :
    importBody indent (GroupImports imports pfxs repo) =
      specJoinBody
        ((sevenList (GroupImports imports pfxs repo)).map (List.map (entryLine indent))) ∧
      ∀ t : GroupTag, (fieldOf (GroupImports imports pfxs repo) t).Pairwise leImp := by
  constructor
  · rw [importBody_eq_codeJoin, codeJoin_false]
  · intro t; rw [fieldOf_GroupImports]; exact sortImports_sorted _

/-! Facts about `strings.TrimSpace` as modelled by `goTrim`. -/

theorem head_dropWhile_false (p : Char → Bool) :
    ∀ (l : GoStr) (c : Char), (l.dropWhile p).head? = some c → p c = false := by
  intro l
  induction l with
  | nil => intro c h; simp [List.dropWhile] at h
  | cons a rest ih =>
    intro c h
    by_cases ha : p a
    · rw [List.dropWhile_cons_of_pos ha] at h; exact ih c h
    · rw [List.dropWhile_cons_of_neg ha] at h
      simp only [List.head?_cons, Option.some.injEq] at h
      rw [← h]; exact Bool.not_eq_true _ |>.mp ha

theorem trimLeft_allspace {ws : GoStr} (h : ∀ c ∈ ws, isGoSpace c) : trimLeft ws = [] :=
  List.dropWhile_eq_nil_iff.mpr h

theorem trimLeft_append (x z : GoStr) :
    trimLeft (x ++ z) = if trimLeft x = [] then trimLeft z else trimLeft x ++ z := by
  induction x with
  | nil => simp [trimLeft]
  | cons a x' ih =>
    by_cases ha : isGoSpace a
    · simpa [trimLeft, List.dropWhile_cons_of_pos ha] using ih
    · simp [trimLeft, List.dropWhile_cons_of_neg ha]

theorem trimLeft_eq_self {l : GoStr} (h : ∀ c, l.head? = some c → isGoSpace c = false) :
    trimLeft l = l := by
  cases l with
  | nil => rfl
  | cons a rest =>
    have ha := h a rfl
    simp [trimLeft, List.dropWhile_cons, ha]

theorem trimRight_eq_self {l : GoStr} (h : ∀ c, l.getLast? = some c → isGoSpace c = false) :
    trimRight l = l := by
  unfold trimRight
  cases hl : l.reverse with
  | nil => simp [List.reverse_eq_nil_iff.mp hl]
  | cons a rest =>
    have ha : l.getLast? = some a := by
      rw [List.getLast?_eq_head?_reverse, hl, List.head?_cons]
    rw [List.dropWhile_cons_of_neg (by simp [h a ha])]
    rw [← hl, List.reverse_reverse]

theorem head_trimLeft_false (l : GoStr) (c : Char) (h : (trimLeft l).head? = some c) :
    isGoSpace c = false := head_dropWhile_false isGoSpace l c h

theorem trimRight_isPrefix (l : GoStr) : trimRight l <+: l := by
  unfold trimRight
  have h : (l.reverse.dropWhile isGoSpace).reverse <+: l.reverse.reverse :=
    List.reverse_prefix.mpr (List.dropWhile_suffix isGoSpace)
  simpa using h

theorem head_goTrim_false (l : GoStr) (c : Char) (h : (goTrim l).head? = some c) :
    isGoSpace c = false := by
  unfold goTrim at h
  rcases trimRight_isPrefix (trimLeft l) with ⟨tail, htail⟩
  apply head_trimLeft_false l c
  rw [← htail]
  cases hcase : trimRight (trimLeft l) with
  | nil => rw [hcase] at h; cases h
  | cons a rest =>
    rw [hcase] at h
    simpa using h

theorem last_goTrim_false (l : GoStr) (c : Char) (h : (goTrim l).getLast? = some c) :
    isGoSpace c = false := by
  unfold goTrim trimRight at h
  rw [List.getLast?_eq_head?_reverse, List.reverse_reverse] at h
  exact head_dropWhile_false isGoSpace _ c h

theorem goTrim_idem (l : GoStr) : goTrim (goTrim l) = goTrim l := by
  show trimRight (trimLeft (goTrim l)) = goTrim l
  rw [trimLeft_eq_self (fun c h => head_goTrim_false l c h),
    trimRight_eq_self (fun c h => last_goTrim_false l c h)]

theorem mem_trimLeft {c : Char} {l : GoStr} (h : c ∈ trimLeft l) : c ∈ l :=
  (List.dropWhile_sublist isGoSpace).mem h

theorem mem_goTrim {c : Char} {l : GoStr} (h : c ∈ goTrim l) : c ∈ l := by
  unfold goTrim at h
  exact mem_trimLeft ((trimRight_isPrefix (trimLeft l)).sublist.mem h)

/-! Facts about line splitting and rendering. -/

theorem mem_dropCR {c : Char} {l : GoStr} (h : c ∈ dropCR l) : c ∈ l := by
  unfold dropCR at h
  by_cases hlast : l.getLast? = some '\r'
  · rw [if_pos hlast] at h; exact (List.dropLast_sublist l).mem h
  · rwa [if_neg hlast] at h

theorem splitLinesAux_no_newline :
    ∀ (t acc : GoStr), '\n' ∉ acc → ∀ l ∈ splitLinesAux t acc, '\n' ∉ l := by
  intro t
  induction t with
  | nil =>
    intro acc hacc l hl
    unfold splitLinesAux at hl
    by_cases he : acc.isEmpty
    · rw [if_pos he] at hl; cases hl
    · rw [if_neg he] at hl
      rcases List.mem_singleton.mp hl with rfl
      exact fun hc => hacc (mem_dropCR hc)
  | cons c rest ih =>
    intro acc hacc l hl
    unfold splitLinesAux at hl
    by_cases hc : c = '\n'
    · rw [if_pos hc] at hl
      rcases List.mem_cons.mp hl with rfl | hl'
      · exact fun hmem => hacc (mem_dropCR hmem)
      · exact ih [] (by simp) l hl'
    · rw [if_neg hc] at hl
      refine ih (acc ++ [c]) ?_ l hl
      intro hmem
      rcases List.mem_append.mp hmem with h1 | h1
      · exact hacc h1
      · exact hc (List.mem_singleton.mp h1).symm

theorem splitLines_no_newline (t : GoStr) : ∀ l ∈ splitLines t, '\n' ∉ l :=
  splitLinesAux_no_newline t [] (by simp)

theorem splitLinesAux_append_line (l : GoStr) (hl : '\n' ∉ l) :
    ∀ (rest acc : GoStr),
    splitLinesAux (l ++ '\n' :: rest) acc = dropCR (acc ++ l) :: splitLinesAux rest [] := by
  induction l with
  | nil => intro rest acc; simp [splitLinesAux]
  | cons c l' ih =>
    intro rest acc
    have hc : c ≠ '\n' := fun h => hl (h ▸ List.mem_cons_self c l')
    have hl' : '\n' ∉ l' := fun h => hl (List.mem_cons_of_mem c h)
    simp only [List.cons_append, splitLinesAux, if_neg hc, List.append_eq]
    rw [ih hl' rest (acc ++ [c])]
    simp [List.append_assoc]

theorem splitLines_renderLines (ls : List GoStr) (h : ∀ l ∈ ls, cleanLine l) :
    splitLines (renderLines ls) = ls := by
  induction ls with
  | nil => rfl
  | cons l rest ih =>
    rcases h l (List.mem_cons_self l rest) with ⟨hnl, hcr⟩
    show splitLinesAux (((l :: rest).map (fun x => x ++ ['\n'])).flatten) [] = l :: rest
    simp only [List.map_cons, List.flatten_cons, List.append_assoc, List.singleton_append]
    rw [splitLinesAux_append_line l hnl _ []]
    simp only [List.nil_append, hcr]
    congr 1
    exact ih (fun x hx => h x (List.mem_cons_of_mem l hx))

/-! Facts about quoting and import-line parsing. -/

theorem breakFirst_append (c : Char) :
    ∀ (a b : GoStr), c ∉ a → breakFirst c (a ++ c :: b) = some (a, b) := by
  intro a
  induction a with
  | nil => intro b _; simp [breakFirst]
  | cons x a' ih =>
    intro b h
    have hx : x ≠ c := fun hxc => h (hxc ▸ List.mem_cons_self x a')
    have h' : c ∉ a' := fun hc => h (List.mem_cons_of_mem x hc)
    simp [breakFirst, hx, ih b h']

theorem breakFirst_some (c : Char) :
    ∀ (l a b : GoStr), breakFirst c l = some (a, b) → l = a ++ c :: b ∧ c ∉ a := by
  intro l
  induction l with
  | nil => intro a b h; simp [breakFirst] at h
  | cons x rest ih =>
    intro a b h
    by_cases hx : x = c
    · rw [breakFirst, if_pos hx] at h
      simp only [Option.some.injEq, Prod.mk.injEq] at h
      obtain ⟨rfl, rfl⟩ := h
      exact ⟨by simp [hx], by simp⟩
    · rw [breakFirst, if_neg hx] at h
      cases hbf : breakFirst c rest with
      | none => rw [hbf] at h; cases h
      | some ab =>
        obtain ⟨a', b'⟩ := ab
        rw [hbf] at h
        simp only [Option.some.injEq, Prod.mk.injEq] at h
        obtain ⟨rfl, rfl⟩ := h
        rcases ih a' b' hbf with ⟨h1, h2⟩
        constructor
        · rw [List.cons_append, ← h1]
        · intro hmem
          rcases List.mem_cons.mp hmem with h3 | h3
          · exact hx h3.symm
          · exact h2 h3

theorem goQuoteChar_plain {c : Char} (h : PlainChar c) : goQuoteChar c = [c] := by
  rcases h with ⟨h1, h2, h3⟩
  unfold goQuoteChar
  rw [if_neg h1, if_pos ⟨h2, h3⟩]

theorem flatten_goQuoteChar_plain : ∀ {p : GoStr}, PlainStr p → (p.map goQuoteChar).flatten = p := by
  intro p
  induction p with
  | nil => intro _; rfl
  | cons c rest ih =>
    intro h
    have hc : PlainChar c := h c (List.mem_cons_self c rest)
    have hrest : PlainStr rest := fun x hx => h x (List.mem_cons_of_mem c hx)
    simp only [List.map_cons, List.flatten_cons, goQuoteChar_plain hc, ih hrest,
      List.singleton_append]

theorem goQuote_plain {p : GoStr} (h : PlainStr p) : goQuote p = '"' :: (p ++ ['"']) := by
  unfold goQuote
  rw [flatten_goQuoteChar_plain h]
  simp

theorem quote_not_plain : ¬PlainChar '"' := by decide

theorem quote_mem_goQuote (p : GoStr) : '"' ∈ goQuote p := by
  unfold goQuote; exact List.mem_cons_self _ _

theorem goQuote_getLast (p : GoStr) : (goQuote p).getLast? = some '"' := by
  unfold goQuote
  rw [List.getLast?_append_of_ne_nil _ (by simp)]
  rfl

theorem trimRight_append_space {a : GoStr}
    (h : ∀ c, a.getLast? = some c → isGoSpace c = false) : trimRight (a ++ [' ']) = a := by
  unfold trimRight
  rw [List.reverse_append]
  show List.reverse (List.dropWhile isGoSpace (' ' :: a.reverse)) = a
  rw [List.dropWhile_cons_of_pos (by decide)]
  cases ha : a.reverse with
  | nil => simp [List.reverse_eq_nil_iff.mp ha]
  | cons c r =>
    have hc : a.getLast? = some c := by
      rw [List.getLast?_eq_head?_reverse, ha, List.head?_cons]
    rw [List.dropWhile_cons_of_neg (by simp [h c hc])]
    have h2 := congrArg List.reverse ha
    rw [List.reverse_reverse] at h2
    exact h2.symm

theorem parseImportLine_some (t p a : GoStr) (h : parseImportLine t = (p, a)) (hp : p ≠ []) :
    ∃ before after, t = before ++ '"' :: after ∧ '"' ∉ before ∧ a = goTrim before ∧
      ∀ c ∈ p, c ∈ after := by
  unfold parseImportLine at h
  cases hbf : breakFirst '"' t with
  | none =>
    rw [hbf] at h
    have h2 : (([], []) : GoStr × GoStr) = (p, a) := h
    exact absurd (congrArg Prod.fst h2).symm hp
  | some ba =>
    obtain ⟨before, after⟩ := ba
    rw [hbf] at h
    have h1 : (match breakFirst '"' after.reverse with
        | none => (([] : GoStr), ([] : GoStr))
        | some (_, revPath) => (revPath.reverse, goTrim before)) = (p, a) := h
    cases hbl : breakFirst '"' after.reverse with
    | none =>
      rw [hbl] at h1
      have h2 : (([], []) : GoStr × GoStr) = (p, a) := h1
      exact absurd (congrArg Prod.fst h2).symm hp
    | some xy =>
      obtain ⟨x, y⟩ := xy
      rw [hbl] at h1
      have h2 : ((y.reverse, goTrim before) : GoStr × GoStr) = (p, a) := h1
      simp only [Prod.mk.injEq] at h2
      obtain ⟨hp2, ha2⟩ := h2
      rcases breakFirst_some '"' t before after hbf with ⟨ht, hq⟩
      rcases breakFirst_some '"' after.reverse x y hbl with ⟨hrev, _⟩
      refine ⟨before, after, ht, hq, ha2.symm, ?_⟩
      intro c hc
      rw [← hp2] at hc
      have hy : c ∈ y := by simpa using hc
      have : after = (x ++ '"' :: y).reverse := by rw [← hrev, List.reverse_reverse]
      rw [this]
      simp [List.mem_append, List.mem_reverse, hy]

/-! Invariants of collected imports. -/

theorem collect_shape :
    ∀ (ls : List GoStr) (found inB : Bool), ∀ i ∈ collectAux found inB ls,
    goTrim i.Alias = i.Alias ∧ '"' ∉ i.Alias ∧ (str "//").isPrefixOf i.Alias = false ∧
      i.Path ≠ [] ∧ ∃ l ∈ ls, (∀ c ∈ i.Alias, c ∈ l) ∧ (∀ c ∈ i.Path, c ∈ l) := by
  intro ls
  induction ls with
  | nil => intro found inB i hi; simp [collectAux] at hi
  | cons line rest ih =>
    intro found inB i hi
    have hstep : ∀ f' b', i ∈ collectAux f' b' rest →
        goTrim i.Alias = i.Alias ∧ '"' ∉ i.Alias ∧ (str "//").isPrefixOf i.Alias = false ∧
          i.Path ≠ [] ∧ ∃ l ∈ line :: rest, (∀ c ∈ i.Alias, c ∈ l) ∧ (∀ c ∈ i.Path, c ∈ l) := by
      intro f' b' hmem
      rcases ih f' b' i hmem with ⟨a1, a2, a3, a4, l, hl, hmeml⟩
      exact ⟨a1, a2, a3, a4, l, List.mem_cons_of_mem _ hl, hmeml⟩
    simp only [collectAux] at hi
    split at hi
    · exact hstep _ _ hi
    · split at hi
      · exact hstep _ _ hi
      · split at hi
        case isTrue h3 =>
          split at hi
          · exact hstep _ _ hi
          case isFalse h4 =>
            rcases List.mem_cons.mp hi with rfl | hi'
            · rcases hpp : parseImportLine (goTrim line) with ⟨path, al⟩
              rw [hpp] at h4
              simp only [hpp]
              have hinv := parseImportLine_some (goTrim line) path al hpp h4
              rcases hinv with ⟨before, after, ht, hq, hal, hpmem⟩
              have hmem_t : ∀ c ∈ al, c ∈ goTrim line := by
                intro c hc
                rw [ht]
                exact List.mem_append_left _ (mem_goTrim (hal ▸ hc))
              have hmem_t2 : ∀ c ∈ path, c ∈ goTrim line := by
                intro c hc
                rw [ht]
                exact List.mem_append_right _ (List.mem_cons_of_mem _ (hpmem c hc))
              refine ⟨?_, ?_, ?_, h4, line, List.mem_cons_self _ _, ?_, ?_⟩
              · rw [hal]; exact goTrim_idem before
              · intro hcq
                exact hq (mem_goTrim (hal ▸ hcq))
              · cases hpf : (str "//").isPrefixOf al with
                | false => rfl
                | true =>
                  exfalso
                  cases hbef : before with
                  | nil =>
                    rw [hbef] at hal
                    rw [hal] at hpf
                    exact absurd hpf (by decide)
                  | cons c0 b' =>
                    rw [hbef] at ht hal
                    have hthead : (goTrim line).head? = some c0 := by rw [ht]; rfl
                    have hc0 : isGoSpace c0 = false := head_goTrim_false line c0 hthead
                    have h5 : trimLeft (c0 :: b') = c0 :: b' := by
                      apply trimLeft_eq_self
                      intro c hch
                      rw [List.head?_cons, Option.some.injEq] at hch
                      rw [← hch]; exact hc0
                    have h6 : al <+: (c0 :: b') := by
                      rw [hal]
                      show trimRight (trimLeft (c0 :: b')) <+: (c0 :: b')
                      rw [h5]
                      exact trimRight_isPrefix _
                    have h7 : (str "//") <+: al := List.isPrefixOf_iff_prefix.mp hpf
                    have h8 : (str "//") <+: goTrim line :=
                      (h7.trans h6).trans ⟨'"' :: after, ht.symm⟩
                    exact h3.2.2 (List.isPrefixOf_iff_prefix.mpr h8)
              · intro c hc
                exact mem_goTrim (hmem_t c hc)
              · intro c hc
                exact mem_goTrim (hmem_t2 c hc)
            · exact hstep _ _ hi'
        · exact hstep _ _ hi

/-! Synthesized entry lines parse back to the imports they were rendered from. -/

theorem trimLeft_goQuote (p : GoStr) : trimLeft (goQuote p) = goQuote p := by
  apply trimLeft_eq_self
  intro c h
  unfold goQuote at h
  rw [show (('"' :: (p.map goQuoteChar).flatten ++ ['"']) : GoStr).head? = some '"' from rfl] at h
  rw [Option.some.injEq] at h
  rw [← h]; decide

theorem trimRight_goQuote (p : GoStr) : trimRight (goQuote p) = goQuote p := by
  apply trimRight_eq_self
  intro c h
  rw [goQuote_getLast, Option.some.injEq] at h
  rw [← h]; decide

theorem alias_head_nonspace {al : GoStr} (hal : goTrim al = al) :
    ∀ c, al.head? = some c → isGoSpace c = false := by
  intro c h
  exact head_goTrim_false al c (by rw [hal]; exact h)

theorem alias_last_nonspace {al : GoStr} (hal : goTrim al = al) :
    ∀ c, al.getLast? = some c → isGoSpace c = false := by
  intro c h
  exact last_goTrim_false al c (by rw [hal]; exact h)

theorem entry_goTrim (ws : GoStr) (hws : ∀ c ∈ ws, isGoSpace c) (imp : GoImport)
    (hal : goTrim imp.Alias = imp.Alias) :
    goTrim (entryLine ws imp) =
      (if imp.Alias = [] then goQuote imp.Path
        else imp.Alias ++ ' ' :: goQuote imp.Path) := by
  have htab : ∀ l : GoStr, trimLeft ('\t' :: l) = trimLeft l := by
    intro l
    show List.dropWhile isGoSpace ('\t' :: l) = trimLeft l
    rw [List.dropWhile_cons_of_pos (by decide)]
    rfl
  by_cases ha : imp.Alias = []
  · rw [if_pos ha]
    unfold entryLine
    rw [if_neg (by simp [ha])]
    show goTrim (ws ++ '\t' :: goQuote imp.Path) = goQuote imp.Path
    unfold goTrim
    rw [trimLeft_append, trimLeft_allspace hws, if_pos rfl, htab, trimLeft_goQuote,
      trimRight_goQuote]
  · rw [if_neg ha]
    unfold entryLine
    rw [if_pos ha]
    show goTrim (ws ++ '\t' :: (imp.Alias ++ ' ' :: goQuote imp.Path)) =
      imp.Alias ++ ' ' :: goQuote imp.Path
    unfold goTrim
    rw [trimLeft_append, trimLeft_allspace hws, if_pos rfl, htab]
    obtain ⟨a, al', haeq⟩ : ∃ a al', imp.Alias = a :: al' := by
      cases hcase : imp.Alias with
      | nil => exact absurd hcase ha
      | cons a al' => exact ⟨a, al', rfl⟩
    have hhead : ∀ c, (imp.Alias ++ ' ' :: goQuote imp.Path).head? = some c →
        isGoSpace c = false := by
      intro c h
      rw [haeq] at h
      rw [List.cons_append, List.head?_cons, Option.some.injEq] at h
      exact alias_head_nonspace hal c (by rw [haeq, List.head?_cons, h])
    have hlast : (imp.Alias ++ ' ' :: goQuote imp.Path).getLast? = some '"' := by
      rw [List.getLast?_append_of_ne_nil _ (by simp)]
      show ([' '] ++ goQuote imp.Path).getLast? = some '"'
      rw [List.getLast?_append_of_ne_nil _ (by simp [goQuote]), goQuote_getLast]
    rw [trimLeft_eq_self hhead]
    apply trimRight_eq_self
    intro c h
    rw [hlast, Option.some.injEq] at h
    rw [← h]; decide

theorem breakFirst_rev_quote (p : GoStr) :
    breakFirst '"' (p ++ ['"']).reverse = some ([], p.reverse) := by
  rw [List.reverse_append]
  show breakFirst '"' ('"' :: p.reverse) = some ([], p.reverse)
  simp [breakFirst]

theorem entry_parse (imp : GoImport) (hal : goTrim imp.Alias = imp.Alias)
    (hq : '"' ∉ imp.Alias) (hplain : PlainStr imp.Path) :
    parseImportLine (if imp.Alias = [] then goQuote imp.Path
      else imp.Alias ++ ' ' :: goQuote imp.Path) = (imp.Path, imp.Alias) := by
  have h2 := breakFirst_rev_quote imp.Path
  by_cases ha : imp.Alias = []
  · rw [if_pos ha]
    have h1 : breakFirst '"' (goQuote imp.Path) = some ([], imp.Path ++ ['"']) := by
      rw [goQuote_plain hplain]; simp [breakFirst]
    have h3 : parseImportLine (goQuote imp.Path) =
        (match breakFirst '"' (imp.Path ++ ['"']).reverse with
          | none => (([] : GoStr), ([] : GoStr))
          | some (_, revPath) => (revPath.reverse, goTrim ([] : GoStr))) := by
      unfold parseImportLine; rw [h1]
    rw [h3, h2]
    show (imp.Path.reverse.reverse, goTrim ([] : GoStr)) = (imp.Path, imp.Alias)
    rw [List.reverse_reverse, ha]
    rfl
  · rw [if_neg ha]
    have hsh : imp.Alias ++ ' ' :: goQuote imp.Path =
        (imp.Alias ++ [' ']) ++ '"' :: (imp.Path ++ ['"']) := by
      rw [goQuote_plain hplain]; simp
    have h1 : breakFirst '"' (imp.Alias ++ ' ' :: goQuote imp.Path) =
        some (imp.Alias ++ [' '], imp.Path ++ ['"']) := by
      rw [hsh]
      apply breakFirst_append
      intro hmem
      rcases List.mem_append.mp hmem with h | h
      · exact hq h
      · exact absurd (List.mem_singleton.mp h) (by decide)
    have h3 : parseImportLine (imp.Alias ++ ' ' :: goQuote imp.Path) =
        (match breakFirst '"' (imp.Path ++ ['"']).reverse with
          | none => (([] : GoStr), ([] : GoStr))
          | some (_, revPath) => (revPath.reverse, goTrim (imp.Alias ++ [' ']))) := by
      unfold parseImportLine; rw [h1]
    rw [h3, h2]
    show (imp.Path.reverse.reverse, goTrim (imp.Alias ++ [' '])) = (imp.Path, imp.Alias)
    rw [List.reverse_reverse]
    congr 1
    unfold goTrim
    rw [trimLeft_eq_self (fun c h => by
      obtain ⟨a, al', haeq⟩ : ∃ a al', imp.Alias = a :: al' := by
        cases hcase : imp.Alias with
        | nil => exact absurd hcase ha
        | cons a al' => exact ⟨a, al', rfl⟩
      rw [haeq, List.cons_append, List.head?_cons, Option.some.injEq] at h
      exact alias_head_nonspace hal c (by rw [haeq, List.head?_cons, h]))]
    exact trimRight_append_space (alias_last_nonspace hal)

/-! Structural facts about the collector's scanning loop. -/

theorem collect_outside (line : GoStr) (rest : List GoStr) (h : goTrim line ≠ opener) :
    collectAux false false (line :: rest) = collectAux false false rest := by
  simp [collectAux, h]

theorem collect_found_outside (line : GoStr) (rest : List GoStr) :
    collectAux true false (line :: rest) = collectAux true false rest := by
  simp [collectAux]

theorem collect_after : ∀ M : List GoStr, collectAux true false M = [] := by
  intro M
  induction M with
  | nil => rfl
  | cons l r ih => rw [collect_found_outside]; exact ih

theorem collect_open (line : GoStr) (rest : List GoStr) (h : goTrim line = opener)
    (inB : Bool) : collectAux false inB (line :: rest) = collectAux true true rest := by
  simp [collectAux, h]

theorem collect_close (found : Bool) (line : GoStr) (rest : List GoStr)
    (h : goTrim line = closer) :
    collectAux found true (line :: rest) = collectAux found false rest := by
  have hne : closer ≠ opener := by decide
  simp [collectAux, h, hne]

theorem collect_blank (found : Bool) (rest : List GoStr) :
    collectAux found true (([] : GoStr) :: rest) = collectAux found true rest := by
  have h1 : goTrim ([] : GoStr) = [] := rfl
  have h2 : ([] : GoStr) ≠ opener := by decide
  have h3 : closer ≠ ([] : GoStr) := by decide
  simp [collectAux, h1, h2, h3.symm, h3]

theorem collect_pre (rest : List GoStr) :
    ∀ pre : List GoStr, noOpen pre →
    collectAux false false (pre ++ rest) = collectAux false false rest := by
  intro pre
  induction pre with
  | nil => intro _; rfl
  | cons l pre' ih =>
    intro h
    rw [List.cons_append, collect_outside l _ (h l (List.mem_cons_self l pre'))]
    exact ih (fun x hx => h x (List.mem_cons_of_mem l hx))

theorem collect_entry_cons (ws : GoStr) (hws : ∀ c ∈ ws, isGoSpace c) (imp : GoImport)
    (hal : goTrim imp.Alias = imp.Alias) (hq : '"' ∉ imp.Alias)
    (hsl : (str "//").isPrefixOf imp.Alias = false) (hpne : imp.Path ≠ [])
    (hplain : PlainStr imp.Path) (rest : List GoStr) :
    collectAux true true (entryLine ws imp :: rest) = imp :: collectAux true true rest := by
  have htr := entry_goTrim ws hws imp hal
  have hpar := entry_parse imp hal hq hplain
  set tail := (if imp.Alias = [] then goQuote imp.Path
    else imp.Alias ++ ' ' :: goQuote imp.Path) with htail
  have hqmem : '"' ∈ tail := by
    by_cases ha : imp.Alias = []
    · rw [htail, if_pos ha]; exact quote_mem_goQuote _
    · rw [htail, if_neg ha]
      exact List.mem_append_right _ (List.mem_cons_of_mem _ (quote_mem_goQuote _))
  have hne_opener : tail ≠ opener := fun he => (by decide : '"' ∉ opener) (he ▸ hqmem)
  have hne_closer : tail ≠ closer := fun he => (by decide : '"' ∉ closer) (he ▸ hqmem)
  have hne_nil : tail ≠ [] := fun he => by rw [he] at hqmem; cases hqmem
  have hss : str "//" = ['/', '/'] := by decide
  have hslash_tail : ((str "//").isPrefixOf tail) = false := by
    by_cases ha : imp.Alias = []
    · rw [htail, if_pos ha, goQuote_plain hplain, hss]
      simp [List.isPrefixOf]
    · rw [htail, if_neg ha, hss]
      cases hA : imp.Alias with
      | nil => exact absurd hA ha
      | cons a al' =>
        cases al' with
        | nil => simp [List.isPrefixOf]
        | cons b al'' =>
          rw [hss, hA] at hsl
          simp only [List.cons_append, List.isPrefixOf] at hsl ⊢
          simpa using hsl
  simp [collectAux, htr, hpar, hne_opener, hne_closer, hne_nil, hslash_tail, hpne]

theorem collect_entries (ws : GoStr) (hws : ∀ c ∈ ws, isGoSpace c) :
    ∀ L : List GoImport,
    (∀ i ∈ L, goTrim i.Alias = i.Alias ∧ '"' ∉ i.Alias ∧
      (str "//").isPrefixOf i.Alias = false ∧ i.Path ≠ [] ∧ PlainStr i.Path) →
    ∀ rest : List GoStr,
    collectAux true true (L.map (entryLine ws) ++ rest) = L ++ collectAux true true rest := by
  intro L
  induction L with
  | nil => intro _ rest; rfl
  | cons i L' ih =>
    intro h rest
    rcases h i (List.mem_cons_self i L') with ⟨h1, h2, h3, h4, h5⟩
    rw [List.map_cons, List.cons_append, collect_entry_cons ws hws i h1 h2 h3 h4 h5,
      ih (fun x hx => h x (List.mem_cons_of_mem i hx)) rest]
    rfl

theorem collect_codeJoin (ws : GoStr) (hws : ∀ c ∈ ws, isGoSpace c) :
    ∀ gs : List (List GoImport),
    (∀ gl ∈ gs, ∀ i ∈ gl, goTrim i.Alias = i.Alias ∧ '"' ∉ i.Alias ∧
      (str "//").isPrefixOf i.Alias = false ∧ i.Path ≠ [] ∧ PlainStr i.Path) →
    ∀ (need : Bool) (rest : List GoStr),
    collectAux true true (codeJoin need (gs.map (List.map (entryLine ws))) ++ rest) =
      gs.flatten ++ collectAux true true rest := by
  intro gs
  induction gs with
  | nil => intro _ need rest; rfl
  | cons g0 gs' ih =>
    intro h need rest
    have htail := ih (fun gl hgl => h gl (List.mem_cons_of_mem _ hgl))
    have hinv := h g0 (List.mem_cons_self g0 gs')
    simp only [List.map_cons, codeJoin]
    by_cases hg : (g0.map (entryLine ws)).isEmpty
    · have hg0 : g0 = [] := by rwa [isEmpty_map, List.isEmpty_iff] at hg
      rw [if_pos hg]
      subst hg0
      simp only [List.nil_append, List.flatten_cons]
      exact htail _ rest
    · rw [if_neg hg]
      cases need with
      | false =>
        simp only [if_neg (by simp : ¬(False : Prop)), Bool.false_eq_true, if_false,
          List.nil_append, List.append_assoc]
        rw [collect_entries ws hws g0 hinv, htail _ rest]
        simp [List.flatten_cons, List.append_assoc]
      | true =>
        simp only [if_pos trivial, List.append_assoc, List.singleton_append]
        rw [List.cons_append, collect_blank, collect_entries ws hws g0 hinv, htail _ rest]
        simp [List.flatten_cons, List.append_assoc]

theorem collect_importBody (ws : GoStr) (hws : ∀ c ∈ ws, isGoSpace c) (g : ImportGroups)
    (hinv : ∀ i ∈ concatG g, goTrim i.Alias = i.Alias ∧ '"' ∉ i.Alias ∧
      (str "//").isPrefixOf i.Alias = false ∧ i.Path ≠ [] ∧ PlainStr i.Path)
    (rest : List GoStr) :
    collectAux true true (importBody ws g ++ rest) = concatG g ++ collectAux true true rest := by
  rw [importBody_eq_codeJoin]
  rw [collect_codeJoin ws hws (sevenList g)
    (fun gl hgl i hi => hinv i (List.mem_flatten.mpr ⟨gl, hgl, hi⟩)) false rest]
  rfl

/-! Structural facts about the rewriting scanning loop. -/

theorem rw_open_new (g : ImportGroups) (inB skip : Bool) (line : GoStr) (rest : List GoStr)
    (h : goTrim line = opener) :
    rewriteAux g false inB skip (line :: rest) =
      line :: (importBody (goTrimSfx line opener) g ++ rewriteAux g true true skip rest) := by
  simp [rewriteAux, h]

theorem rw_open_old (g : ImportGroups) (inB skip : Bool) (line : GoStr) (rest : List GoStr)
    (h : goTrim line = opener) :
    rewriteAux g true inB skip (line :: rest) = rewriteAux g true inB true rest := by
  simp [rewriteAux, h]

theorem rw_close_in (g : ImportGroups) (found skip : Bool) (line : GoStr) (rest : List GoStr)
    (h : goTrim line = closer) :
    rewriteAux g found true skip (line :: rest) = line :: rewriteAux g found false skip rest := by
  have hne : closer ≠ opener := by decide
  simp [rewriteAux, h, hne]

theorem rw_pass (g : ImportGroups) (found : Bool) (line : GoStr) (rest : List GoStr)
    (h : goTrim line ≠ opener) :
    rewriteAux g found false false (line :: rest) =
      line :: rewriteAux g found false false rest := by
  simp [rewriteAux, h]

theorem rw_skip_other (g : ImportGroups) (found : Bool) (line : GoStr) (rest : List GoStr)
    (ho : goTrim line ≠ opener) (hc : goTrim line ≠ closer) :
    rewriteAux g found false true (line :: rest) = rewriteAux g found false true rest := by
  simp [rewriteAux, ho, hc]

theorem rw_skip_close (g : ImportGroups) (found : Bool) (line : GoStr) (rest : List GoStr)
    (hc : goTrim line = closer) :
    rewriteAux g found false true (line :: rest) = rewriteAux g found false false rest := by
  have hne : closer ≠ opener := by decide
  simp [rewriteAux, hc, hne]

theorem rw_inblock_drop (g : ImportGroups) (found skip : Bool) (line : GoStr)
    (rest : List GoStr) (ho : goTrim line ≠ opener) (hc : goTrim line ≠ closer) :
    rewriteAux g found true skip (line :: rest) = rewriteAux g found true skip rest := by
  cases skip <;> simp [rewriteAux, ho, hc]

theorem rw_pre (g : ImportGroups) (found : Bool) (rest : List GoStr) :
    ∀ pre : List GoStr, noOpen pre →
    rewriteAux g found false false (pre ++ rest) = pre ++ rewriteAux g found false false rest := by
  intro pre
  induction pre with
  | nil => intro _; rfl
  | cons l pre' ih =>
    intro h
    rw [List.cons_append, rw_pass g found l _ (h l (List.mem_cons_self l pre')),
      ih (fun x hx => h x (List.mem_cons_of_mem l hx)), List.cons_append]

theorem rw_noOpen_id (g : ImportGroups) (found : Bool) (ls : List GoStr) (h : noOpen ls) :
    rewriteAux g found false false ls = ls := by
  have h2 := rw_pre g found [] ls h
  simpa [rewriteAux] using h2

theorem rw_body_drop (g : ImportGroups) (found skip : Bool) (rest : List GoStr) :
    ∀ body : List GoStr, (∀ l ∈ body, goTrim l ≠ opener ∧ goTrim l ≠ closer) →
    rewriteAux g found true skip (body ++ rest) = rewriteAux g found true skip rest := by
  intro body
  induction body with
  | nil => intro _; rfl
  | cons l body' ih =>
    intro h
    rcases h l (List.mem_cons_self l body') with ⟨ho, hc⟩
    rw [List.cons_append, rw_inblock_drop g found skip l _ ho hc,
      ih (fun x hx => h x (List.mem_cons_of_mem l hx))]

theorem rw_ignore_g (g g' : ImportGroups) :
    ∀ (ls : List GoStr) (inB skip : Bool),
    rewriteAux g true inB skip ls = rewriteAux g' true inB skip ls := by
  intro ls
  induction ls with
  | nil => intro inB skip; rfl
  | cons line rest ih =>
    intro inB skip
    by_cases ho : goTrim line = opener
    · rw [rw_open_old g _ _ _ _ ho, rw_open_old g' _ _ _ _ ho]
      exact ih inB true
    · cases inB with
      | true =>
        by_cases hc : goTrim line = closer
        · rw [rw_close_in g _ _ _ _ hc, rw_close_in g' _ _ _ _ hc, ih false skip]
        · rw [rw_inblock_drop g _ _ _ _ ho hc, rw_inblock_drop g' _ _ _ _ ho hc]
          exact ih true skip
      | false =>
        cases skip with
        | true =>
          by_cases hc : goTrim line = closer
          · rw [rw_skip_close g _ _ _ hc, rw_skip_close g' _ _ _ hc]
            exact ih false false
          · rw [rw_skip_other g _ _ _ ho hc, rw_skip_other g' _ _ _ ho hc]
            exact ih false true
        | false =>
          rw [rw_pass g _ _ _ ho, rw_pass g' _ _ _ ho, ih false false]

theorem rw_afterBlock_shape (g : ImportGroups) :
    ∀ ls : List GoStr,
    (∀ skip, noOpen (rewriteAux g true false skip ls)) ∧
      (∀ skip, rewriteAux g true true skip ls = [] ∨
        ∃ cl M, rewriteAux g true true skip ls = cl :: M ∧ goTrim cl = closer ∧ noOpen M) := by
  intro ls
  induction ls with
  | nil =>
    constructor
    · intro _ l hl; cases hl
    · intro _; exact Or.inl rfl
  | cons line rest ih =>
    obtain ⟨ihF, ihT⟩ := ih
    constructor
    · intro skip
      by_cases ho : goTrim line = opener
      · rw [rw_open_old _ _ _ _ _ ho]
        exact ihF true
      · cases skip with
        | true =>
          by_cases hc : goTrim line = closer
          · rw [rw_skip_close _ _ _ _ hc]; exact ihF false
          · rw [rw_skip_other _ _ _ _ ho hc]; exact ihF true
        | false =>
          rw [rw_pass _ _ _ _ ho]
          intro l hl
          rcases List.mem_cons.mp hl with rfl | hl'
          · exact ho
          · exact ihF false l hl'
    · intro skip
      by_cases ho : goTrim line = opener
      · rw [rw_open_old _ _ _ _ _ ho]; exact ihT true
      · by_cases hc : goTrim line = closer
        · rw [rw_close_in _ _ _ _ _ hc]
          exact Or.inr ⟨line, _, rfl, hc, ihF skip⟩
        · rw [rw_inblock_drop _ _ _ _ _ ho hc]; exact ihT skip

theorem rw_tail_stable (g g' : ImportGroups) (rest : List GoStr) :
    rewriteAux g' true true false (rewriteAux g true true false rest) =
      rewriteAux g true true false rest := by
  rcases (rw_afterBlock_shape g rest).2 false with h | ⟨cl, M, hEq, hcl, hM⟩
  · rw [h]; rfl
  · rw [hEq, rw_close_in _ _ _ _ _ hcl, rw_noOpen_id _ _ _ hM]

theorem rw_found_subset (g : ImportGroups) :
    ∀ (ls : List GoStr) (inB skip : Bool), ∀ l ∈ rewriteAux g true inB skip ls, l ∈ ls := by
  intro ls
  induction ls with
  | nil => intro inB skip l hl; cases hl
  | cons line rest ih =>
    intro inB skip l hl
    by_cases ho : goTrim line = opener
    · rw [rw_open_old _ _ _ _ _ ho] at hl
      exact List.mem_cons_of_mem _ (ih inB true l hl)
    · cases inB with
      | true =>
        by_cases hc : goTrim line = closer
        · rw [rw_close_in _ _ _ _ _ hc] at hl
          rcases List.mem_cons.mp hl with rfl | hl'
          · exact List.mem_cons_self _ _
          · exact List.mem_cons_of_mem _ (ih false skip l hl')
        · rw [rw_inblock_drop _ _ _ _ _ ho hc] at hl
          exact List.mem_cons_of_mem _ (ih true skip l hl)
      | false =>
        cases skip with
        | true =>
          by_cases hc : goTrim line = closer
          · rw [rw_skip_close _ _ _ _ hc] at hl
            exact List.mem_cons_of_mem _ (ih false false l hl)
          · rw [rw_skip_other _ _ _ _ ho hc] at hl
            exact List.mem_cons_of_mem _ (ih false true l hl)
        | false =>
          rw [rw_pass _ _ _ _ ho] at hl
          rcases List.mem_cons.mp hl with rfl | hl'
          · exact List.mem_cons_self _ _
          · exact List.mem_cons_of_mem _ (ih false false l hl')

theorem rw_after_eq_spec (g : ImportGroups) :
    ∀ (M : List GoStr) (s : Bool), rewriteAux g true false s M = specAfterSt s M := by
  intro M
  induction M with
  | nil => intro s; cases s <;> rfl
  | cons line rest ih =>
    intro s
    by_cases ho : goTrim line = opener
    · rw [rw_open_old _ _ _ _ _ ho]
      cases s with
      | false =>
        show _ = specAfterSt false (line :: rest)
        unfold specAfterSt
        rw [if_pos ho]
        exact ih true
      | true =>
        show _ = specAfterSt true (line :: rest)
        unfold specAfterSt
        rw [if_neg (by rw [ho]; decide)]
        exact ih true
    · cases s with
      | false =>
        rw [rw_pass _ _ _ _ ho]
        show _ = specAfterSt false (line :: rest)
        unfold specAfterSt
        rw [if_neg ho, ih false]
      | true =>
        by_cases hc : goTrim line = closer
        · rw [rw_skip_close _ _ _ _ hc]
          show _ = specAfterSt true (line :: rest)
          unfold specAfterSt
          rw [if_pos hc]
          exact ih false
        · rw [rw_skip_other _ _ _ _ ho hc]
          show _ = specAfterSt true (line :: rest)
          unfold specAfterSt
          rw [if_neg hc]
          exact ih true

theorem rw_skip_drop (g : ImportGroups) (rest : List GoStr) :
    ∀ body : List GoStr, (∀ l ∈ body, goTrim l ≠ closer) →
    rewriteAux g true false true (body ++ rest) = rewriteAux g true false true rest := by
  intro body
  induction body with
  | nil => intro _; rfl
  | cons l body' ih =>
    intro h
    rw [List.cons_append]
    by_cases ho : goTrim l = opener
    · rw [rw_open_old _ _ _ _ _ ho]
      exact ih (fun x hx => h x (List.mem_cons_of_mem l hx))
    · rw [rw_skip_other _ _ _ _ ho (h l (List.mem_cons_self l body'))]
      exact ih (fun x hx => h x (List.mem_cons_of_mem l hx))

theorem codeJoin_mem :
    ∀ (ps : List (List GoStr)) (need : Bool) (l : GoStr), l ∈ codeJoin need ps →
    l = [] ∨ ∃ p ∈ ps, l ∈ p := by
  intro ps
  induction ps with
  | nil => intro need l hl; cases hl
  | cons p rest ih =>
    intro need l hl
    simp only [codeJoin] at hl
    rcases List.mem_append.mp hl with h1 | h1
    · by_cases hp : p.isEmpty
      · rw [if_pos hp] at h1; cases h1
      · rw [if_neg hp] at h1
        rcases List.mem_append.mp h1 with h2 | h2
        · cases need with
          | false => cases h2
          | true =>
            left
            simpa using List.mem_singleton.mp (by simpa using h2)
        · exact Or.inr ⟨p, List.mem_cons_self p rest, h2⟩
    · rcases ih _ l h1 with h2 | ⟨q, hq, hlq⟩
      · exact Or.inl h2
      · exact Or.inr ⟨q, List.mem_cons_of_mem p hq, hlq⟩

theorem importBody_lines (ind : GoStr) (g : ImportGroups) :
    ∀ l ∈ importBody ind g, l = [] ∨ ∃ i ∈ concatG g, l = entryLine ind i := by
  intro l hl
  rw [importBody_eq_codeJoin] at hl
  rcases codeJoin_mem _ false l hl with h | ⟨p, hp, hlp⟩
  · exact Or.inl h
  · rcases List.mem_map.mp hp with ⟨gl, hgl, rfl⟩
    rcases List.mem_map.mp hlp with ⟨i, hi, rfl⟩
    exact Or.inr ⟨i, List.mem_flatten.mpr ⟨gl, hgl, hi⟩, rfl⟩

theorem rw_first_block (g : ImportGroups) (pre : List GoStr) (op : GoStr) (rest : List GoStr)
    (hpre : noOpen pre) (hop : goTrim op = opener) :
    rewriteAux g false false false (pre ++ op :: rest) =
      pre ++ op :: (importBody (goTrimSfx op opener) g ++ rewriteAux g true true false rest) := by
  rw [rw_pre g false _ pre hpre, rw_open_new g false false op rest hop]

/-- C4 counterexample: in a CRLF file, the line `a` outside the import block is
written back as `a\n` — the carriage return is dropped, so the line is not
byte-identical to the input including its line-ending convention. -/
theorem rewriteFile_crlf_counterexample :
    RewriteFile crlfT fmtOnlyG = str "a\nimport (\n\t\"fmt\"\n)\n" ∧
      goContains crlfT (str "a\r\n") = true ∧
      goContains (RewriteFile crlfT fmtOnlyG) (str "a\r") = false :=
  ⟨by decide, by decide, by decide⟩

/-- C4 (amended): every line outside the first import block (and outside any
deleted extra block) is emitted in the same relative order with its content
preserved, but normalized — one trailing carriage return stripped by the line
scanner and the line re-terminated with a single LF — so byte-identity holds
exactly for LF-terminated input lines.  Extra `import (` blocks after the first
are deleted as described by `specAfter`. -/
theorem rewriteFile_outside_lines (T : GoStr) (g : ImportGroups) (pre : List GoStr)
    (op : GoStr) (body : List GoStr) (cl : GoStr) (rest : List GoStr)
    (hsplit : splitLines T = pre ++ op :: (body ++ cl :: rest))
    (hpre : noOpen pre) (hop : goTrim op = opener)
    (hbody : ∀ l ∈ body, goTrim l ≠ opener ∧ goTrim l ≠ closer)
    (hcl : goTrim cl = closer) :
    RewriteFile T g = renderLines (pre ++ op :: (importBody (goTrimSfx op opener) g ++
      cl :: specAfter rest)) := by
  unfold RewriteFile
  rw [hsplit, rw_first_block g pre op _ hpre hop,
    rw_body_drop g true false (cl :: rest) body hbody,
    rw_close_in g true false cl rest hcl,
    rw_after_eq_spec g rest false]
  rfl

theorem rewriteFile_outside_lines_witness :
    splitLines stdlibT = [str "package test", str ""] ++ str "import (" ::
        ([str "    \"fmt\"", str "    \"strings\"", str "    \"context\""] ++ str ")" ::
          [str "", str "func main() \x7b", str "    fmt.Println(\"test\")", str "\x7d"]) ∧
      noOpen [str "package test", str ""] ∧
      goTrim (str "import (") = opener ∧
      (∀ l ∈ [str "    \"fmt\"", str "    \"strings\"", str "    \"context\""],
        goTrim l ≠ opener ∧ goTrim l ≠ closer) ∧
      goTrim (str ")") = closer ∧
      RewriteFile stdlibT fmtOnlyG =
        renderLines ([str "package test", str ""] ++ str "import (" ::
          (importBody (goTrimSfx (str "import (") opener) fmtOnlyG ++ str ")" ::
            specAfter [str "", str "func main() \x7b", str "    fmt.Println(\"test\")", str "\x7d"])) :=
  ⟨by decide, by decide, by decide, by decide, by decide,
    rewriteFile_outside_lines stdlibT fmtOnlyG [str "package test", str ""] (str "import (")
      [str "    \"fmt\"", str "    \"strings\"", str "    \"context\""] (str ")")
      [str "", str "func main() \x7b", str "    fmt.Println(\"test\")", str "\x7d"]
      (by decide) (by decide) (by decide) (by decide) (by decide)⟩

/-- C9: a second `import (` block is deleted in full — its opening line, its
interior lines, and its closing `)` line produce no output — while the first
block is retained and rewritten, and all other lines pass through. -/
theorem rewriteFile_second_block (T : GoStr) (g : ImportGroups) (pre : List GoStr)
    (op1 : GoStr) (body1 : List GoStr) (cl1 : GoStr) (mid : List GoStr) (op2 : GoStr)
    (body2 : List GoStr) (cl2 : GoStr) (post : List GoStr)
    (hsplit : splitLines T =
      pre ++ op1 :: (body1 ++ cl1 :: (mid ++ op2 :: (body2 ++ cl2 :: post))))
    (hpre : noOpen pre) (hop1 : goTrim op1 = opener)
    (hbody1 : ∀ l ∈ body1, goTrim l ≠ opener ∧ goTrim l ≠ closer)
    (hcl1 : goTrim cl1 = closer) (hmid : noOpen mid) (hop2 : goTrim op2 = opener)
    (hbody2 : ∀ l ∈ body2, goTrim l ≠ closer) (hcl2 : goTrim cl2 = closer) :
    RewriteFile T g = renderLines (pre ++ op1 :: (importBody (goTrimSfx op1 opener) g ++
      cl1 :: (mid ++ specAfter post))) := by
  unfold RewriteFile
  rw [hsplit, rw_first_block g pre op1 _ hpre hop1,
    rw_body_drop g true false _ body1 hbody1,
    rw_close_in g true false cl1 _ hcl1,
    rw_pre g true _ mid hmid,
    rw_open_old g false false op2 _ hop2,
    rw_skip_drop g _ body2 hbody2,
    rw_skip_close g true cl2 post hcl2,
    rw_after_eq_spec g post false]
  rfl

theorem rewriteFile_second_block_witness :
    splitLines twoBlocksT = [str "package test", str ""] ++ str "import (" ::
        ([str "\t\"fmt\""] ++ str ")" :: ([str "", str "var x = 1", str ""] ++ str "import (" ::
          ([str "\t\"os\""] ++ str ")" :: [str "", str "func main() \x7b\x7d"]))) ∧
      noOpen [str "package test", str ""] ∧
      goTrim (str "import (") = opener ∧
      (∀ l ∈ [str "\t\"fmt\""], goTrim l ≠ opener ∧ goTrim l ≠ closer) ∧
      goTrim (str ")") = closer ∧
      noOpen [str "", str "var x = 1", str ""] ∧
      (∀ l ∈ [str "\t\"os\""], goTrim l ≠ closer) ∧
      RewriteFile twoBlocksT fmtOnlyG =
        renderLines ([str "package test", str ""] ++ str "import (" ::
          (importBody (goTrimSfx (str "import (") opener) fmtOnlyG ++ str ")" ::
            ([str "", str "var x = 1", str ""] ++
              specAfter [str "", str "func main() \x7b\x7d"]))) :=
  ⟨by decide, by decide, by decide, by decide, by decide, by decide, by decide,
    rewriteFile_second_block twoBlocksT fmtOnlyG [str "package test", str ""] (str "import (")
      [str "\t\"fmt\""] (str ")") [str "", str "var x = 1", str ""] (str "import (")
      [str "\t\"os\""] (str ")") [str "", str "func main() \x7b\x7d"]
      (by decide) (by decide) (by decide) (by decide) (by decide) (by decide) (by decide)
      (by decide) (by decide)⟩

/-- C7 counterexample: when the `import (` line carries trailing whitespace,
`strings.TrimSuffix` removes nothing, so the captured indentation is the whole
opening line (including the text `import ( `), not the leading whitespace
before `import (` (which is empty here). -/
theorem rewriteFile_trailing_ws_counterexample :
    RewriteFile trailingWsT fmtOnlyG = str "import ( \nimport ( \t\"fmt\"\n)\n" ∧
      goTrimSfx (str "import ( ") opener = str "import ( " ∧
      str "import ( " ≠ str "" :=
  ⟨by decide, by decide, by decide⟩

/-- C7 (amended): every synthesized entry is indented with the opening line
minus a trailing `import (` suffix — which is the leading whitespace exactly
when the opening line ends with `import (`, and the entire opening line
(`import (` text included) when the line carries trailing whitespace — followed
by one tab, then `alias path` or `path` with the path re-quoted. -/
theorem rewriteFile_entry_indent (T : GoStr) (g : ImportGroups) (pre : List GoStr)
    (op : GoStr) (rest : List GoStr) (hsplit : splitLines T = pre ++ op :: rest) (hpre : noOpen pre)
    (hop : goTrim op = opener) :
    RewriteFile T g = renderLines (pre ++ op :: (importBody (goTrimSfx op opener) g ++
        rewriteAux g true true false rest)) ∧
      ∀ l ∈ importBody (goTrimSfx op opener) g,
        l = [] ∨ ∃ i ∈ concatG g, l = entryLine (goTrimSfx op opener) i := by
  refine ⟨?_, importBody_lines _ g⟩
  unfold RewriteFile
  rw [hsplit, rw_first_block g pre op rest hpre hop]

theorem rewriteFile_entry_indent_witness :
    splitLines trailingWsT = [] ++ str "import ( " :: [str ")"] ∧
      noOpen ([] : List GoStr) ∧
      goTrim (str "import ( ") = opener ∧
      (RewriteFile trailingWsT fmtOnlyG =
        renderLines ([] ++ str "import ( " ::
          (importBody (goTrimSfx (str "import ( ") opener) fmtOnlyG ++
            rewriteAux fmtOnlyG true true false [str ")"])) ∧
        ∀ l ∈ importBody (goTrimSfx (str "import ( ") opener) fmtOnlyG,
          l = [] ∨ ∃ i ∈ concatG fmtOnlyG,
            l = entryLine (goTrimSfx (str "import ( ") opener) i) :=
  ⟨by decide, by decide, by decide,
    rewriteFile_entry_indent trailingWsT fmtOnlyG [] (str "import ( ") [str ")"]
      (by decide) (by decide) (by decide)⟩
theorem specAfterSt_subset : ∀ (ls : List GoStr) (s : Bool), ∀ l ∈ specAfterSt s ls, l ∈ ls := by
  intro ls
  induction ls with
  | nil => intro s l hl; cases s <;> cases hl
  | cons x rest ih =>
    intro s l hl
    cases s with
    | false =>
      by_cases hx : goTrim x = opener
      · rw [show specAfterSt false (x :: rest) = specAfterSt true rest from by
          simp [specAfterSt, hx]] at hl
        exact List.mem_cons_of_mem _ (ih true l hl)
      · rw [show specAfterSt false (x :: rest) = x :: specAfterSt false rest from by
          simp [specAfterSt, hx]] at hl
        rcases List.mem_cons.mp hl with rfl | h
        · exact List.mem_cons_self _ _
        · exact List.mem_cons_of_mem _ (ih false l h)
    | true =>
      by_cases hx : goTrim x = closer
      · rw [show specAfterSt true (x :: rest) = specAfterSt false rest from by
          simp [specAfterSt, hx]] at hl
        exact List.mem_cons_of_mem _ (ih false l hl)
      · rw [show specAfterSt true (x :: rest) = specAfterSt true rest from by
          simp [specAfterSt, hx]] at hl
        exact List.mem_cons_of_mem _ (ih true l hl)

theorem noOpen_specAfterSt : ∀ (ls : List GoStr) (s : Bool), noOpen (specAfterSt s ls) := by
  intro ls
  induction ls with
  | nil => intro s l hl; cases s <;> cases hl
  | cons x rest ih =>
    intro s l hl
    cases s with
    | false =>
      by_cases hx : goTrim x = opener
      · rw [show specAfterSt false (x :: rest) = specAfterSt true rest from by
          simp [specAfterSt, hx]] at hl
        exact ih true l hl
      · rw [show specAfterSt false (x :: rest) = x :: specAfterSt false rest from by
          simp [specAfterSt, hx]] at hl
        rcases List.mem_cons.mp hl with rfl | h
        · exact hx
        · exact ih false l h
    | true =>
      by_cases hx : goTrim x = closer
      · rw [show specAfterSt true (x :: rest) = specAfterSt false rest from by
          simp [specAfterSt, hx]] at hl
        exact ih false l hl
      · rw [show specAfterSt true (x :: rest) = specAfterSt true rest from by
          simp [specAfterSt, hx]] at hl
        exact ih true l hl

theorem specAfterSt_noOpen_id : ∀ ls : List GoStr, noOpen ls → specAfterSt false ls = ls := by
  intro ls
  induction ls with
  | nil => intro _; rfl
  | cons x rest ih =>
    intro h
    have hx := h x (List.mem_cons_self x rest)
    show (if goTrim x = opener then specAfterSt true rest else x :: specAfterSt false rest) =
      x :: rest
    rw [if_neg hx, ih (fun y hy => h y (List.mem_cons_of_mem x hy))]

theorem specAfter_idem (ls : List GoStr) : specAfterSt false (specAfter ls) = specAfter ls :=
  specAfterSt_noOpen_id _ (noOpen_specAfterSt ls false)

theorem mem_goTrimSfx {c : Char} {s sfx : GoStr} (h : c ∈ goTrimSfx s sfx) : c ∈ s := by
  unfold goTrimSfx at h
  split at h
  · exact (List.take_sublist _ _).mem h
  · exact h

theorem entry_no_newline (ind : GoStr) (i : GoImport) (hind : '\n' ∉ ind)
    (hal : '\n' ∉ i.Alias) (hplain : PlainStr i.Path) : '\n' ∉ entryLine ind i := by
  intro hmem
  have hq : '\n' ∉ goQuote i.Path := by
    rw [goQuote_plain hplain]
    intro hquote
    rcases List.mem_cons.mp hquote with he | hm
    · exact absurd he (by decide)
    · rcases List.mem_append.mp hm with h1 | h1
      · exact absurd (hplain _ h1) (by decide)
      · exact absurd (List.mem_singleton.mp h1) (by decide)
  unfold entryLine at hmem
  split at hmem
  · rcases List.mem_append.mp hmem with h1 | h1
    · exact hind h1
    · rcases List.mem_cons.mp h1 with he | h2
      · exact absurd he (by decide)
      · rcases List.mem_append.mp h2 with h3 | h3
        · exact hal h3
        · rcases List.mem_cons.mp h3 with he | h4
          · exact absurd he (by decide)
          · exact hq h4
  · rcases List.mem_append.mp hmem with h1 | h1
    · exact hind h1
    · rcases List.mem_cons.mp h1 with he | h2
      · exact absurd he (by decide)
      · exact hq h2

theorem entry_getLast (ind : GoStr) (i : GoImport) : (entryLine ind i).getLast? = some '"' := by
  unfold entryLine
  split
  · rw [List.getLast?_append_of_ne_nil _ (by simp)]
    show (['\t'] ++ (i.Alias ++ ' ' :: goQuote i.Path)).getLast? = some '"'
    rw [List.getLast?_append_of_ne_nil _ (by simp)]
    rw [List.getLast?_append_of_ne_nil _ (by simp)]
    show ([' '] ++ goQuote i.Path).getLast? = some '"'
    rw [List.getLast?_append_of_ne_nil _ (by simp [goQuote]), goQuote_getLast]
  · rw [List.getLast?_append_of_ne_nil _ (by simp)]
    show (['\t'] ++ goQuote i.Path).getLast? = some '"'
    rw [List.getLast?_append_of_ne_nil _ (by simp [goQuote]), goQuote_getLast]

theorem dropCR_entry (ind : GoStr) (i : GoImport) : dropCR (entryLine ind i) = entryLine ind i := by
  unfold dropCR
  rw [entry_getLast, if_neg (by decide)]

theorem entry_goTrim_ne (ind : GoStr) (hind : ∀ c ∈ ind, isGoSpace c) (i : GoImport)
    (hal : goTrim i.Alias = i.Alias) :
    goTrim (entryLine ind i) ≠ opener ∧ goTrim (entryLine ind i) ≠ closer := by
  have htr := entry_goTrim ind hind i hal
  have hq : '"' ∈ goTrim (entryLine ind i) := by
    rw [htr]
    split
    · exact quote_mem_goQuote _
    · exact List.mem_append_right _ (List.mem_cons_of_mem _ (quote_mem_goQuote _))
  constructor
  · intro he; exact (by decide : '"' ∉ opener) (he ▸ hq)
  · intro he; exact (by decide : '"' ∉ closer) (he ▸ hq)
theorem detectProject_empty_iff (d : GoStr) :
    ∀ l : List GoImport, (detectProject d l = [] ↔ ∀ i ∈ l, detectOne d i.Path = []) := by
  intro l
  induction l with
  | nil => simp [detectProject]
  | cons i rest ih =>
    have hshow : detectProject d (i :: rest) =
        if detectOne d i.Path = [] then detectProject d rest else detectOne d i.Path := rfl
    rw [hshow]
    by_cases h : detectOne d i.Path = []
    · rw [if_pos h, ih]
      constructor
      · intro hall j hj
        rcases List.mem_cons.mp hj with rfl | hj'
        · exact h
        · exact hall j hj'
      · intro hall j hj
        exact hall j (List.mem_cons_of_mem _ hj)
    · rw [if_neg h]
      constructor
      · intro he; exact absurd he h
      · intro hall; exact absurd (hall i (List.mem_cons_self i rest)) h

theorem detectProject_bounded (d P : GoStr) :
    ∀ l : List GoImport,
    (∀ i ∈ l, detectOne d i.Path = [] ∨ detectOne d i.Path = P) →
    (∃ i ∈ l, detectOne d i.Path ≠ []) → detectProject d l = P := by
  intro l
  induction l with
  | nil => intro _ hex; rcases hex with ⟨i, hi, _⟩; cases hi
  | cons i rest ih =>
    intro hb hex
    show (if detectOne d i.Path = [] then detectProject d rest else detectOne d i.Path) = P
    by_cases h : detectOne d i.Path = []
    · rw [if_pos h]
      apply ih (fun j hj => hb j (List.mem_cons_of_mem _ hj))
      rcases hex with ⟨j, hj, hne⟩
      rcases List.mem_cons.mp hj with rfl | hj'
      · exact absurd h hne
      · exact ⟨j, hj', hne⟩
    · rw [if_neg h]
      rcases hb i (List.mem_cons_self i rest) with h1 | h1
      · exact absurd h1 h
      · exact h1

theorem groups_ext (g1 g2 : ImportGroups) (h : ∀ t, fieldOf g1 t = fieldOf g2 t) : g1 = g2 := by
  obtain ⟨s1, e1, o1, d1, r1, p1, q1⟩ := g1
  obtain ⟨s2, e2, o2, d2, r2, p2, q2⟩ := g2
  have h1 := h .stdlib
  have h2 := h .external
  have h3 := h .orgCommon
  have h4 := h .domainCommon
  have h5 := h .repoOther
  have h6 := h .projectPkg
  have h7 := h .projectInternal
  simp only [fieldOf] at h1 h2 h3 h4 h5 h6 h7
  subst h1 h2 h3 h4 h5 h6 h7
  rfl

theorem filter_concatG (g : ImportGroups) (q : GoImport → Bool) (t : GroupTag)
    (hq : ∀ t' : GroupTag, ∀ i ∈ fieldOf g t', (q i = true ↔ t' = t)) :
    (concatG g).filter q = fieldOf g t := by
  have hfe : ∀ t' : GroupTag, (fieldOf g t').filter q = if t' = t then fieldOf g t' else [] := by
    intro t'
    by_cases he : t' = t
    · rw [if_pos he]
      apply List.filter_eq_self.mpr
      intro i hi
      exact (hq t' i hi).mpr he
    · rw [if_neg he]
      apply List.filter_eq_nil_iff.mpr
      intro i hi hqi
      exact he ((hq t' i hi).mp hqi)
  have h1 : g.Stdlib.filter q = if GroupTag.stdlib = t then g.Stdlib else [] := hfe .stdlib
  have h2 : g.External.filter q = if GroupTag.external = t then g.External else [] := hfe .external
  have h3 : g.OrgCommon.filter q = if GroupTag.orgCommon = t then g.OrgCommon else [] :=
    hfe .orgCommon
  have h4 : g.DomainCommon.filter q = if GroupTag.domainCommon = t then g.DomainCommon else [] :=
    hfe .domainCommon
  have h5 : g.RepoOther.filter q = if GroupTag.repoOther = t then g.RepoOther else [] :=
    hfe .repoOther
  have h6 : g.ProjectPkg.filter q = if GroupTag.projectPkg = t then g.ProjectPkg else [] :=
    hfe .projectPkg
  have h7 : g.ProjectInternal.filter q =
      if GroupTag.projectInternal = t then g.ProjectInternal else [] := hfe .projectInternal
  rw [concatG_eq]
  simp only [List.filter_append, h1, h2, h3, h4, h5, h6, h7]
  cases t <;> simp [fieldOf]

theorem groupImports_stable (repo : RepoConfig) (imps : List GoImport)
    (hproj : ∀ i ∈ imps,
      detectOne (extractDomainFromTemplate repo.ProjectsTemplate) i.Path = [] ∨
      detectOne (extractDomainFromTemplate repo.ProjectsTemplate) i.Path =
        detectProject (extractDomainFromTemplate repo.ProjectsTemplate) imps) :
    GroupImports (concatG (GroupImports imps [] repo)) [] repo = GroupImports imps [] repo := by
  have hP2 : detectProject (extractDomainFromTemplate repo.ProjectsTemplate)
      (concatG (GroupImports imps [] repo)) =
      detectProject (extractDomainFromTemplate repo.ProjectsTemplate) imps := by
    by_cases hP : detectProject (extractDomainFromTemplate repo.ProjectsTemplate) imps = []
    · rw [hP]
      apply (detectProject_empty_iff _ _).mpr
      intro j hj
      rcases hproj j (mem_concatG_GroupImports hj) with h1 | h1
      · exact h1
      · rw [h1, hP]
    · apply detectProject_bounded
      · intro j hj
        exact hproj j (mem_concatG_GroupImports hj)
      · have hex : ∃ i ∈ imps,
            detectOne (extractDomainFromTemplate repo.ProjectsTemplate) i.Path ≠ [] := by
          by_contra hno
          push_neg at hno
          exact hP ((detectProject_empty_iff _ imps).mpr hno)
        rcases hex with ⟨i0, hi0, hne0⟩
        have hpmem : i0.Path ∈ (dedupFirst imps).map GoImport.Path :=
          (dedupFirstAux_path_mem i0.Path imps []).mpr
            ⟨List.mem_map_of_mem _ hi0, by simp⟩
        have hpg : i0.Path ∈ (concatG (GroupImports imps [] repo)).map GoImport.Path :=
          ((concatG_GroupImports imps [] repo).map GoImport.Path).mem_iff.mpr hpmem
        rcases List.mem_map.mp hpg with ⟨j, hj, hjp⟩
        refine ⟨j, hj, ?_⟩
        rw [hjp]
        exact hne0
  apply groups_ext
  intro t
  rw [fieldOf_GroupImports, hP2]
  have hnodup : ((concatG (GroupImports imps [] repo)).map GoImport.Path).Nodup :=
    ((concatG_GroupImports imps [] repo).map GoImport.Path).nodup_iff.mpr
      (dedupFirstAux_nodup imps [])
  have hdedup : dedupFirst (concatG (GroupImports imps [] repo)) =
      concatG (GroupImports imps [] repo) :=
    dedupFirstAux_eq_self _ [] hnodup (fun p _ hmem => by cases hmem)
  rw [hdedup]
  have hq : ∀ t' : GroupTag, ∀ i ∈ fieldOf (GroupImports imps [] repo) t',
      ((decide (classifyPath repo
        (detectProject (extractDomainFromTemplate repo.ProjectsTemplate) imps) i.Path = t)) = true
        ↔ t' = t) := by
    intro t' i hi
    have hc := mem_fieldOf_GroupImports hi
    constructor
    · intro hdec
      exact hc.symm.trans (of_decide_eq_true hdec)
    · intro he
      exact decide_eq_true (hc.trans he)
  rw [filter_concatG (GroupImports imps [] repo) _ t hq]
  have hsorted : (fieldOf (GroupImports imps [] repo) t).Pairwise leImp := by
    rw [fieldOf_GroupImports]
    exact sortImports_sorted _
  exact sortImports_eq_of_sorted _ hsorted

theorem collect_output (g : ImportGroups) (pre : List GoStr) (op cl : GoStr)
    (tail2 : List GoStr) (hpre : noOpen pre) (hop : goTrim op = opener)
    (hind : ∀ c ∈ goTrimSfx op opener, isGoSpace c) (hcl : goTrim cl = closer)
    (hinv : ∀ i ∈ concatG g, goTrim i.Alias = i.Alias ∧ '"' ∉ i.Alias ∧
      (str "//").isPrefixOf i.Alias = false ∧ i.Path ≠ [] ∧ PlainStr i.Path) :
    collectAux false false
      (pre ++ op :: (importBody (goTrimSfx op opener) g ++ cl :: tail2)) = concatG g := by
  rw [collect_pre _ pre hpre, collect_open op _ hop false,
    collect_importBody _ hind g hinv (cl :: tail2), collect_close true cl tail2 hcl,
    collect_after, List.append_nil]

theorem rw_output (g : ImportGroups) (pre : List GoStr) (op cl : GoStr) (rest : List GoStr)
    (hpre : noOpen pre) (hop : goTrim op = opener)
    (hind : ∀ c ∈ goTrimSfx op opener, isGoSpace c) (hcl : goTrim cl = closer)
    (halias : ∀ i ∈ concatG g, goTrim i.Alias = i.Alias) :
    rewriteAux g false false false
      (pre ++ op :: (importBody (goTrimSfx op opener) g ++ cl :: specAfter rest)) =
      pre ++ op :: (importBody (goTrimSfx op opener) g ++ cl :: specAfter rest) := by
  rw [rw_first_block g pre op _ hpre hop]
  have hb : ∀ l ∈ importBody (goTrimSfx op opener) g,
      goTrim l ≠ opener ∧ goTrim l ≠ closer := by
    intro l hl
    rcases importBody_lines _ g l hl with rfl | ⟨i, hig, rfl⟩
    · exact ⟨by decide, by decide⟩
    · exact entry_goTrim_ne _ hind i (halias i hig)
  rw [rw_body_drop g true false _ _ hb, rw_close_in g true false cl _ hcl,
    rw_after_eq_spec g _ false, specAfter_idem]
/-- C1 counterexample: the full transform is not idempotent for every input.
On a file whose first import block mentions two projects (`courses` and
`workouts`) under `projects/health`, the first pass groups by the project
detected from the textual order of the collected imports; rewriting reorders
the imports, the second pass detects the other project, and the two outputs
differ. -/
theorem transformOnce_not_idem :
    transformOnce vkRepo (transformOnce vkRepo twoProjectsT) ≠
      transformOnce vkRepo twoProjectsT := by decide

/-- C1 (amended): the transform is idempotent on inputs whose line structure is
canonical-friendly: a first `import (` block with all-whitespace indentation on
its opening line, LF line endings, plainly-quotable collected paths, and a
project detection that is order-stable (every import's detected project value
is empty or equal to the overall detected project — in particular any input
mentioning at most one project under the `projects/<domain>` tree).  Without
the stability hypothesis idempotence fails (see the counterexample). -/
theorem transformOnce_idem (repo : RepoConfig) (T : GoStr) (pre : List GoStr) (op : GoStr)
    (body : List GoStr) (cl : GoStr) (rest : List GoStr)
    (hsplit : splitLines T = pre ++ op :: (body ++ cl :: rest))
    (hpre : noOpen pre) (hop : goTrim op = opener)
    (hind : ∀ c ∈ goTrimSfx op opener, isGoSpace c)
    (hbody : ∀ l ∈ body, goTrim l ≠ opener ∧ goTrim l ≠ closer)
    (hcl : goTrim cl = closer)
    (hcr : ∀ l ∈ splitLines T, dropCR l = l)
    (hplain : ∀ i ∈ CollectImports T, PlainStr i.Path)
    (hproj : ∀ i ∈ CollectImports T,
      detectOne (extractDomainFromTemplate repo.ProjectsTemplate) i.Path = [] ∨
      detectOne (extractDomainFromTemplate repo.ProjectsTemplate) i.Path =
        detectProject (extractDomainFromTemplate repo.ProjectsTemplate) (CollectImports T)) :
    transformOnce repo (transformOnce repo T) = transformOnce repo T := by
  have hinv5 : ∀ i ∈ concatG (GroupImports (CollectImports T) [] repo),
      goTrim i.Alias = i.Alias ∧ '"' ∉ i.Alias ∧ (str "//").isPrefixOf i.Alias = false ∧
      i.Path ≠ [] ∧ PlainStr i.Path := by
    intro i hi
    have hm : i ∈ CollectImports T := mem_concatG_GroupImports hi
    rcases collect_shape (splitLines T) false false i hm with ⟨a1, a2, a3, a4, _⟩
    exact ⟨a1, a2, a3, a4, hplain i hm⟩
  have hopmem : op ∈ splitLines T := by
    rw [hsplit]
    exact List.mem_append_right _ (List.mem_cons_self _ _)
  have hclean : ∀ l ∈ pre ++ op :: (importBody (goTrimSfx op opener)
      (GroupImports (CollectImports T) [] repo) ++ cl :: specAfter rest), cleanLine l := by
    have hlineT : ∀ l ∈ splitLines T, cleanLine l := fun l hl =>
      ⟨splitLines_no_newline T l hl, hcr l hl⟩
    intro l hl
    rcases List.mem_append.mp hl with h1 | h1
    · exact hlineT l (by rw [hsplit]; exact List.mem_append_left _ h1)
    · rcases List.mem_cons.mp h1 with rfl | h2
      · exact hlineT l hopmem
      · rcases List.mem_append.mp h2 with h3 | h3
        · rcases importBody_lines _ _ l h3 with rfl | ⟨i, hig, rfl⟩
          · exact ⟨by simp, by decide⟩
          · rcases collect_shape (splitLines T) false false i
              (mem_concatG_GroupImports hig) with ⟨_, _, _, _, lw, hlw, hmal, _⟩
            refine ⟨?_, dropCR_entry _ i⟩
            apply entry_no_newline
            · intro hc
              exact splitLines_no_newline T op hopmem (mem_goTrimSfx hc)
            · intro hc
              exact splitLines_no_newline T lw hlw (hmal '\n' hc)
            · exact hplain i (mem_concatG_GroupImports hig)
        · rcases List.mem_cons.mp h3 with rfl | h4
          · refine hlineT l (by
              rw [hsplit]
              exact List.mem_append_right _ (List.mem_cons_of_mem _
                (List.mem_append_right _ (List.mem_cons_self _ _))))
          · have h5 : l ∈ rest := specAfterSt_subset rest false l h4
            refine hlineT l (by
              rw [hsplit]
              exact List.mem_append_right _ (List.mem_cons_of_mem _
                (List.mem_append_right _ (List.mem_cons_of_mem _ h5))))
  have hsplitOut : splitLines (renderLines (pre ++ op :: (importBody (goTrimSfx op opener)
      (GroupImports (CollectImports T) [] repo) ++ cl :: specAfter rest))) =
      pre ++ op :: (importBody (goTrimSfx op opener)
        (GroupImports (CollectImports T) [] repo) ++ cl :: specAfter rest) :=
    splitLines_renderLines _ hclean
  have hT1 : transformOnce repo T = renderLines (pre ++ op :: (importBody (goTrimSfx op opener)
      (GroupImports (CollectImports T) [] repo) ++ cl :: specAfter rest)) := by
    show RewriteFile T (GroupImports (CollectImports T) [] repo) = _
    unfold RewriteFile
    rw [hsplit, rw_first_block _ pre op _ hpre hop,
      rw_body_drop _ true false (cl :: rest) body hbody,
      rw_close_in _ true false cl rest hcl, rw_after_eq_spec _ rest false]
    rfl
  have hC : CollectImports (renderLines (pre ++ op :: (importBody (goTrimSfx op opener)
      (GroupImports (CollectImports T) [] repo) ++ cl :: specAfter rest))) =
      concatG (GroupImports (CollectImports T) [] repo) := by
    show collectAux false false (splitLines (renderLines _)) = _
    rw [hsplitOut]
    exact collect_output _ pre op cl _ hpre hop hind hcl hinv5
  have hG2 : GroupImports (CollectImports (renderLines (pre ++ op ::
      (importBody (goTrimSfx op opener) (GroupImports (CollectImports T) [] repo) ++
        cl :: specAfter rest)))) [] repo = GroupImports (CollectImports T) [] repo := by
    rw [hC]
    exact groupImports_stable repo (CollectImports T) hproj
  rw [hT1]
  show RewriteFile _ (GroupImports (CollectImports _) [] repo) = _
  rw [hG2]
  unfold RewriteFile
  rw [hsplitOut,
    rw_output (GroupImports (CollectImports T) [] repo) pre op cl rest hpre hop hind hcl
      (fun i hi => (hinv5 i hi).1)]

theorem transformOnce_idem_witness :
    splitLines stdlibT = [str "package test", str ""] ++ str "import (" ::
        ([str "    \"fmt\"", str "    \"strings\"", str "    \"context\""] ++ str ")" ::
          [str "", str "func main() \x7b", str "    fmt.Println(\"test\")", str "\x7d"]) ∧
      noOpen [str "package test", str ""] ∧
      goTrim (str "import (") = opener ∧
      (∀ c ∈ goTrimSfx (str "import (") opener, isGoSpace c) ∧
      (∀ l ∈ [str "    \"fmt\"", str "    \"strings\"", str "    \"context\""],
        goTrim l ≠ opener ∧ goTrim l ≠ closer) ∧
      goTrim (str ")") = closer ∧
      (∀ l ∈ splitLines stdlibT, dropCR l = l) ∧
      (∀ i ∈ CollectImports stdlibT, PlainStr i.Path) ∧
      (∀ i ∈ CollectImports stdlibT,
        detectOne (extractDomainFromTemplate vkRepo.ProjectsTemplate) i.Path = [] ∨
        detectOne (extractDomainFromTemplate vkRepo.ProjectsTemplate) i.Path =
          detectProject (extractDomainFromTemplate vkRepo.ProjectsTemplate)
            (CollectImports stdlibT)) ∧
      transformOnce vkRepo (transformOnce vkRepo stdlibT) = transformOnce vkRepo stdlibT :=
  ⟨by decide, by decide, by decide, by decide, by decide, by decide, by decide, by decide,
    by decide,
    transformOnce_idem vkRepo stdlibT [str "package test", str ""] (str "import (")
      [str "    \"fmt\"", str "    \"strings\"", str "    \"context\""] (str ")")
      [str "", str "func main() \x7b", str "    fmt.Println(\"test\")", str "\x7d"]
      (by decide) (by decide) (by decide) (by decide) (by decide) (by decide) (by decide)
      (by decide) (by decide)⟩
